import Mathlib

/-!
Verification development for the forwarding engine of `src/bot.py`
(TeleOle/auto-forward).

The Python code is shallowly embedded: Python strings are modelled as
`List Char` (the relevant code is ASCII except for the emoji table, which
is modelled by explicit codepoint ranges), Python integers as `Int`/`Nat`,
dictionaries with `.get(k, False)` access as total functions defaulting to
`false`, and fallible operations (`int(...)` raising `ValueError`) as
`Option`.  Recursive scanners that model `re.sub` loops take an explicit
fuel argument (always called with fuel at least the length of the input,
which suffices because every step consumes at least one character); this
keeps every definition structurally recursive and hence executable by
`decide` in the kernel.
-/

/-! ## Python string basics -/

/-- Truthiness of an optional Python string: `None` and `""` are falsy. -/
def pyTruthy (o : Option (List Char)) : Bool :=
  match o with
  | none => false
  | some s => !s.isEmpty

/-- Python `a or b` for two optional strings (used as `msg.message or msg.text or ""`):
the first truthy value, else `""`. -/
def pyOrText (a b : Option (List Char)) : List Char :=
  match a with
  | some s => if s.isEmpty then (match b with | some t => t | none => []) else s
  | none => match b with | some t => t | none => []

/-- ASCII lowercase of a character, modelling Python `str.lower` on the
identifier strings handled by the bot (which are ASCII). -/
def pyLowerChar (c : Char) : Char := c.toLower

/-- Lowercase a whole string. -/
def pyLower (l : List Char) : List Char := l.map pyLowerChar

/-! ## Decimal representation of Python integers

`check_source_match` manipulates `str(n)` and `int(s)`.  We model the
decimal representation with a structural (fuel-based) digit function and
relate it to `Nat.digits` for the general theorems. -/

/-- Little-endian base-10 digit list, fuel-based so that it reduces in the
kernel.  `digitsF f n` agrees with `Nat.digits 10 n` whenever `n ≤ f`. -/
def digitsF : Nat → Nat → List Nat
  | 0, _ => []
  | f+1, n => if n = 0 then [] else n % 10 :: digitsF f (n / 10)

/-- Little-endian base-10 digits of a natural number. -/
def decDigits (n : Nat) : List Nat := digitsF n n

theorem digitsF_eq_digits : ∀ (f n : Nat), n ≤ f → digitsF f n = Nat.digits 10 n := by
  intro f
  induction f with
  | zero =>
    intro n hn
    interval_cases n
    simp [digitsF]
  | succ f ih =>
    intro n hn
    by_cases h0 : n = 0
    · subst h0; simp [digitsF]
    · have hpos : 0 < n := Nat.pos_of_ne_zero h0
      have hdiv : n / 10 ≤ f := by
        have : n / 10 < n := Nat.div_lt_self hpos (by omega)
        omega
      rw [Nat.digits_def' (b := 10) (by omega) hpos]
      simp only [digitsF, h0, if_false]
      rw [ih _ hdiv]

theorem decDigits_eq (n : Nat) : decDigits n = Nat.digits 10 n :=
  digitsF_eq_digits n n (Nat.le_refl n)

/-- The character for a single decimal digit (garbage on inputs `≥ 10`,
which never occur for outputs of `decDigits`). -/
def decDigitChar : Nat → Char
  | 0 => '0'
  | 1 => '1'
  | 2 => '2'
  | 3 => '3'
  | 4 => '4'
  | 5 => '5'
  | 6 => '6'
  | 7 => '7'
  | 8 => '8'
  | 9 => '9'
  | _ => '*'

/-- Decimal string of a natural number, as Python `str` produces it. -/
def natDecChars (n : Nat) : List Char :=
  if n = 0 then ['0'] else (decDigits n).reverse.map decDigitChar

/-- Decimal string of a Python integer (`str(i)`). -/
def intDecChars (i : Int) : List Char :=
  if i < 0 then '-' :: natDecChars i.natAbs else natDecChars i.toNat

/-- Numeric value of a decimal digit character (codepoints 48–57), `none`
for non-digits. -/
def decDigitVal (c : Char) : Option Nat :=
  if 48 ≤ c.toNat && c.toNat ≤ 57 then some (c.toNat - 48) else none

/-- Fold step used by `parseDigits?`. -/
def parseDigitStep (acc : Option Nat) (c : Char) : Option Nat :=
  match acc, decDigitVal c with
  | some a, some d => some (a * 10 + d)
  | _, _ => none

/-- Parse a non-empty string of decimal digits; `none` on the empty string
or on any non-digit character (Python `int` raising `ValueError`). -/
def parseDigits? (l : List Char) : Option Nat :=
  match l with
  | [] => none
  | _ => l.foldl parseDigitStep (some 0)

/-- Python `int(s)` on the strings that occur in the engine: an optional
leading minus sign followed by decimal digits. -/
def pyInt? (l : List Char) : Option Int :=
  match l with
  | '-' :: rest => (parseDigits? rest).map (fun n => -(n : Int))
  | _ => (parseDigits? l).map (fun n => (n : Int))

/-! ## check_source_match (src/bot.py lines 636-664)

The body of the Python `try` block is modelled in the `Option` monad:
`none` means a `ValueError` escaped (only possible from
`int(str(n)[4:])` when the stripped slice is empty), which the Python
code turns into `return False`. -/

/-- The prefix `"-100"` checked by `str(n).startswith('-100')`. -/
def pref100 : List Char := ['-', '1', '0', '0']

/-- The body of the numeric branch of `check_source_match`, given the
parsed source integer.  The Python `try` block runs in the `Option`
monad: `int(str(n)[4:])` on an empty slice is the `none` case.
`abs` of a Python int is modelled by `Int.natAbs` (comparisons between
two `abs` results are comparisons of natural numbers). -/
def sourceMatchNum (chat_id src_num : Int) : Option Bool :=
  if chat_id = src_num ∨ chat_id.natAbs = src_num.natAbs then some true
  else do
    let hitSrc ←
      if pref100.isPrefixOf (intDecChars src_num) then do
        let src_real ← parseDigits? ((intDecChars src_num).drop 4)
        let hit ←
          if pref100.isPrefixOf (intDecChars chat_id) then do
            let chat_real ← parseDigits? ((intDecChars chat_id).drop 4)
            pure (chat_real = src_real : Bool)
          else pure false
        pure (hit || (chat_id.natAbs = src_real : Bool))
      else pure false
    if hitSrc then pure true
    else
      if pref100.isPrefixOf (intDecChars chat_id) then do
        let chat_real ← parseDigits? ((intDecChars chat_id).drop 4)
        pure (chat_real = src_num.natAbs : Bool)
      else pure false

/-- Embedding of `check_source_match(chat_id, chat_username, source)`
(src/bot.py lines 636-664).  A `ValueError` escaping the `try` block
(the `getD false`) yields `False` in the Python code. -/
def check_source_match (chat_id : Int) (chat_username : Option (List Char))
    (source : List Char) : Bool :=
  if source.head? = some '@' then
    match chat_username with
    | none => false
    | some u => !u.isEmpty && (pyLower u = pyLower (source.drop 1) : Bool)
  else
    match pyInt? source with
    | none => false
    | some src_num => (sourceMatchNum chat_id src_num).getD false

/-! ## Facts about the decimal embedding -/

theorem decDigitVal_decDigitChar {d : Nat} (hd : d < 10) :
    decDigitVal (decDigitChar d) = some d := by
  interval_cases d <;> rfl

theorem decDigitChar_isDigit {d : Nat} (hd : d < 10) :
    (decDigitVal (decDigitChar d)).isSome := by
  rw [decDigitVal_decDigitChar hd]; rfl

/-- Every character of `natDecChars u` is a decimal digit. -/
theorem natDecChars_digits (u : Nat) :
    ∀ c ∈ natDecChars u, (decDigitVal c).isSome := by
  intro c hc
  unfold natDecChars at hc
  by_cases h0 : u = 0
  · simp [h0] at hc
    subst hc; rfl
  · simp only [h0, if_false, List.mem_map, List.mem_reverse] at hc
    obtain ⟨d, hd, rfl⟩ := hc
    have : d < 10 := by
      rw [decDigits_eq] at hd
      exact Nat.digits_lt_base (by omega) hd
    exact decDigitChar_isDigit this

theorem natDecChars_ne_nil (u : Nat) : natDecChars u ≠ [] := by
  unfold natDecChars
  by_cases h0 : u = 0
  · simp [h0]
  · simp only [h0, if_false]
    intro h
    have := congrArg List.length h
    simp [decDigits_eq, Nat.digits_ne_nil_iff_ne_zero, h0] at this
    exact (Nat.digits_ne_nil_iff_ne_zero.mpr h0) this

/-- Fold lemma: parsing a mapped digit list computes the base-10 fold. -/
theorem parse_foldl_map (ds : List Nat) (h : ∀ d ∈ ds, d < 10) :
    ∀ acc : Nat, (ds.map decDigitChar).foldl parseDigitStep (some acc)
      = some (ds.foldl (fun a d => a * 10 + d) acc) := by
  induction ds with
  | nil => intro acc; rfl
  | cons d ds ih =>
    intro acc
    have hd : d < 10 := h d (List.mem_cons_self d ds)
    have hds : ∀ x ∈ ds, x < 10 := fun x hx => h x (List.mem_cons_of_mem d hx)
    simp only [List.map_cons, List.foldl_cons]
    have hstep : parseDigitStep (some acc) (decDigitChar d) = some (acc * 10 + d) := by
      unfold parseDigitStep
      rw [decDigitVal_decDigitChar hd]
    rw [hstep, ih hds]

/-- Horner evaluation over the reversed digit list recovers `Nat.ofDigits`. -/
theorem foldl_reverse_ofDigits (L : List Nat) :
    ∀ acc : Nat, L.reverse.foldl (fun a d => a * 10 + d) acc
      = acc * 10 ^ L.length + Nat.ofDigits 10 L := by
  induction L with
  | nil => intro acc; simp
  | cons d L ih =>
    intro acc
    simp only [List.reverse_cons, List.foldl_append, List.foldl_cons, List.foldl_nil]
    rw [ih acc, Nat.ofDigits_cons]
    simp only [List.length_cons, pow_succ]
    ring

/-- Unfolding lemma for `parseDigits?` on a non-empty list. -/
theorem parseDigits_eq_foldl (l : List Char) (h : l ≠ []) :
    parseDigits? l = l.foldl parseDigitStep (some 0) := by
  cases l with
  | nil => exact absurd rfl h
  | cons c cs => rfl

/-- Round trip: parsing the decimal string of `u` yields `u`. -/
theorem parseDigits_natDecChars (u : Nat) : parseDigits? (natDecChars u) = some u := by
  by_cases h0 : u = 0
  · subst h0; rfl
  · have hform : natDecChars u = (Nat.digits 10 u).reverse.map decDigitChar := by
      unfold natDecChars
      simp [h0, decDigits_eq]
    have hlt : ∀ d ∈ (Nat.digits 10 u).reverse, d < 10 := by
      intro d hd
      rw [List.mem_reverse] at hd
      exact Nat.digits_lt_base (by omega) hd
    rw [parseDigits_eq_foldl _ (natDecChars_ne_nil u), hform,
      parse_foldl_map _ hlt 0, foldl_reverse_ofDigits (Nat.digits 10 u) 0]
    simp [Nat.ofDigits_digits]

/-- Parsing any non-empty all-digit string succeeds. -/
theorem parseDigits_isSome (l : List Char) (hne : l ≠ [])
    (hdig : ∀ c ∈ l, (decDigitVal c).isSome) : (parseDigits? l).isSome := by
  have key : ∀ (m : List Char), (∀ c ∈ m, (decDigitVal c).isSome) →
      ∀ acc : Nat, (m.foldl parseDigitStep (some acc)).isSome := by
    intro m
    induction m with
    | nil => intro _ acc; rfl
    | cons c cs ih =>
      intro hm acc
      have hc : (decDigitVal c).isSome := hm c (List.mem_cons_self c cs)
      obtain ⟨d, hd⟩ := Option.isSome_iff_exists.mp hc
      simp only [List.foldl_cons]
      have hstep : parseDigitStep (some acc) c = some (acc * 10 + d) := by
        unfold parseDigitStep; rw [hd]
      rw [hstep]
      exact ih (fun x hx => hm x (List.mem_cons_of_mem c hx)) _
  rw [parseDigits_eq_foldl _ hne]
  exact key l hdig 0

/-! ## The -100 prefix transform -/

/-- The natural number whose decimal string is `"100"` followed by the
decimal string of `u`; `-(pxNat u)` is the `-100`-prefixed channel-id form
of the underlying id `u`. -/
def pxNat (u : Nat) : Nat := 100 * 10 ^ (natDecChars u).length + u

/-- The three textual/integer forms under which an underlying channel id
`u` appears at call sites: bare positive, bare negative, `-100`-prefixed. -/
def idForms (u : Nat) : List Int := [(u : Int), -(u : Int), -((pxNat u : Nat) : Int)]

theorem natDecChars_pxNat (u : Nat) :
    natDecChars (pxNat u) = '1' :: '0' :: '0' :: natDecChars u := by
  by_cases h0 : u = 0
  · subst h0; decide
  · have hlen : (natDecChars u).length = (Nat.digits 10 u).length := by
      unfold natDecChars
      simp [h0, decDigits_eq]
    have h100 : Nat.digits 10 100 = [0, 0, 1] := by
      rw [← decDigits_eq]
      decide
    have hdig : Nat.digits 10 (pxNat u) = Nat.digits 10 u ++ [0, 0, 1] := by
      have hsplit := Nat.digits_append_digits (b := 10) (n := u) (m := 100) (by norm_num)
      rw [h100] at hsplit
      rw [hsplit]
      congr 1
      unfold pxNat
      rw [hlen]
      ring
    have hpx0 : pxNat u ≠ 0 := by
      unfold pxNat
      have : 0 < 10 ^ (natDecChars u).length := Nat.pos_pow_of_pos _ (by omega)
      omega
    unfold natDecChars
    simp only [hpx0, if_false, h0, decDigits_eq, hdig]
    simp [List.reverse_append]
    exact ⟨rfl, rfl⟩

/-- The decimal string of a natural number never starts with `"-100"`. -/
theorem pref100_natDecChars (u : Nat) : pref100.isPrefixOf (natDecChars u) = false := by
  obtain ⟨c, cs, hc⟩ := List.exists_cons_of_ne_nil (natDecChars_ne_nil u)
  have hcdig : (decDigitVal c).isSome := by
    apply natDecChars_digits u
    rw [hc]
    exact List.mem_cons_self c cs
  have hcne : c ≠ '-' := by
    intro h
    subst h
    simp [decDigitVal] at hcdig
  rw [hc]
  have : (('-' : Char) == c) = false := beq_eq_false_iff_ne.mpr (Ne.symm hcne)
  simp [pref100, List.isPrefixOf, this]

theorem pref100_cons_prefixed (xs : List Char) :
    pref100.isPrefixOf ('-' :: '1' :: '0' :: '0' :: xs) = true := by
  simp [pref100, List.isPrefixOf]

/-- Decimal strings of integers round-trip through `pyInt?`. -/
theorem pyInt_intDecChars (i : Int) : pyInt? (intDecChars i) = some i := by
  by_cases hneg : i < 0
  · unfold intDecChars
    rw [if_pos hneg]
    show (parseDigits? (natDecChars i.natAbs)).map (fun n => -(n : Int)) = some i
    rw [parseDigits_natDecChars]
    simp [Int.ofNat_natAbs_of_nonpos (Int.le_of_lt hneg)]
  · unfold intDecChars
    rw [if_neg hneg]
    obtain ⟨c, cs, hc⟩ := List.exists_cons_of_ne_nil (natDecChars_ne_nil i.toNat)
    have hcdig : (decDigitVal c).isSome := by
      apply natDecChars_digits i.toNat
      rw [hc]
      exact List.mem_cons_self c cs
    have hcne : c ≠ '-' := by
      intro h
      subst h
      simp [decDigitVal] at hcdig
    rw [hc]
    have harm : pyInt? (c :: cs) = (parseDigits? (c :: cs)).map (fun n => (n : Int)) := by
      unfold pyInt?
      split
      · rename_i heq
        injection heq with h1 _
        exact absurd h1 hcne
      · rfl
    rw [harm, ← hc, parseDigits_natDecChars]
    simp [Int.toNat_of_nonneg (Int.not_lt.mp hneg)]

theorem pref100_cons_iff (xs : List Char) :
    pref100.isPrefixOf ('-' :: xs) = (['1', '0', '0'] : List Char).isPrefixOf xs := by
  simp [pref100, List.isPrefixOf]

theorem intDecChars_head_ne_at (i : Int) : (intDecChars i).head? ≠ some '@' := by
  unfold intDecChars
  by_cases hneg : i < 0
  · simp only [hneg, if_true]
    intro h
    simp at h
  · simp only [hneg, if_false]
    obtain ⟨ch, cs2, hc⟩ := List.exists_cons_of_ne_nil (natDecChars_ne_nil i.toNat)
    have hdig : (decDigitVal ch).isSome := by
      apply natDecChars_digits i.toNat
      rw [hc]
      exact List.mem_cons_self ch cs2
    rw [hc]
    simp only [List.head?_cons, ne_eq, Option.some.injEq]
    intro h
    subst h
    simp [decDigitVal] at hdig

/-- Feeding the decimal string of an integer source into
`check_source_match` runs the numeric branch on that integer. -/
theorem check_source_match_int (c s : Int) :
    check_source_match c none (intDecChars s) = (sourceMatchNum c s).getD false := by
  unfold check_source_match
  rw [if_neg (intDecChars_head_ne_at s), pyInt_intDecChars]

theorem source_match_prefix_symmetric (u : Nat) (hu : u ≠ 100) :
    ∀ c ∈ idForms u, ∀ s ∈ idForms u,
      check_source_match c none (intDecChars s) = true := by
  by_cases h0 : u = 0
  · subst h0
    decide
  have hupos : 0 < u := Nat.pos_of_ne_zero h0
  have hpow : 0 < 100 * 10 ^ (natDecChars u).length := by positivity
  have hXgt : u < pxNat u := by
    unfold pxNat
    omega
  have eqP : intDecChars (u : Int) = natDecChars u := by
    unfold intDecChars
    rw [if_neg (by omega)]
    congr 1
  have eqN : intDecChars (-(u : Int)) = '-' :: natDecChars u := by
    unfold intDecChars
    rw [if_pos (by omega)]
    congr 2
    omega
  have eqX : intDecChars (-((pxNat u : Nat) : Int))
      = '-' :: '1' :: '0' :: '0' :: natDecChars u := by
    unfold intDecChars
    rw [if_pos (by omega)]
    rw [show (-((pxNat u : Nat) : Int)).natAbs = pxNat u by omega]
    rw [natDecChars_pxNat]
  have parseX : parseDigits? (('-' :: '1' :: '0' :: '0' :: natDecChars u).drop 4)
      = some u := parseDigits_natDecChars u
  rintro c hc s hs
  simp only [idForms, List.mem_cons, List.not_mem_nil, or_false] at hc hs
  rcases hc with rfl | rfl | rfl <;> rcases hs with rfl | rfl | rfl
  · -- chat bare positive, source bare positive
    rw [check_source_match_int]
    unfold sourceMatchNum
    rw [if_pos (Or.inl rfl)]
    rfl
  · -- chat bare positive, source bare negative
    rw [check_source_match_int]
    unfold sourceMatchNum
    rw [if_pos (Or.inr (by omega))]
    rfl
  · -- chat bare positive, source prefixed
    rw [check_source_match_int]
    unfold sourceMatchNum
    rw [if_neg (by omega)]
    rw [eqX, eqP, pref100_cons_prefixed, parseX, pref100_natDecChars]
    simp [Option.bind]
  · -- chat bare negative, source bare positive
    rw [check_source_match_int]
    unfold sourceMatchNum
    rw [if_pos (Or.inr (by omega))]
    rfl
  · -- chat bare negative, source bare negative
    rw [check_source_match_int]
    unfold sourceMatchNum
    rw [if_pos (Or.inl rfl)]
    rfl
  · -- chat bare negative, source prefixed
    rw [check_source_match_int]
    unfold sourceMatchNum
    rw [if_neg (by omega)]
    rw [eqX, eqN, pref100_cons_prefixed, parseX, pref100_cons_iff]
    cases hP : (['1', '0', '0'] : List Char).isPrefixOf (natDecChars u) with
    | false =>
      simp [Option.bind]
    | true =>
      obtain ⟨t, ht⟩ := List.isPrefixOf_iff_prefix.mp hP
      have htne : t ≠ [] := by
        intro h
        subst h
        have hround := parseDigits_natDecChars u
        rw [← ht] at hround
        rw [show parseDigits? (['1', '0', '0'] ++ ([] : List Char)) = some 100 from rfl]
          at hround
        injection hround with h100
        exact hu h100.symm
      have htdig : ∀ x ∈ t, (decDigitVal x).isSome := by
        intro x hx
        apply natDecChars_digits u
        rw [← ht]
        simp [hx]
      obtain ⟨r, hr⟩ := Option.isSome_iff_exists.mp (parseDigits_isSome t htne htdig)
      have hdropN : ('-' :: natDecChars u).drop 4 = t := by
        rw [← ht]
        rfl
      rw [hdropN, hr]
      simp [Option.bind]
  · -- chat prefixed, source bare positive
    rw [check_source_match_int]
    unfold sourceMatchNum
    rw [if_neg (by omega)]
    rw [eqX, eqP, pref100_natDecChars, pref100_cons_prefixed, parseX]
    simp [Option.bind]
  · -- chat prefixed, source bare negative
    rw [check_source_match_int]
    unfold sourceMatchNum
    rw [if_neg (by omega)]
    rw [eqX, eqN, pref100_cons_prefixed, parseX, pref100_cons_iff]
    cases hP : (['1', '0', '0'] : List Char).isPrefixOf (natDecChars u) with
    | false =>
      simp [Option.bind]
    | true =>
      obtain ⟨t, ht⟩ := List.isPrefixOf_iff_prefix.mp hP
      have htne : t ≠ [] := by
        intro h
        subst h
        have hround := parseDigits_natDecChars u
        rw [← ht] at hround
        rw [show parseDigits? (['1', '0', '0'] ++ ([] : List Char)) = some 100 from rfl]
          at hround
        injection hround with h100
        exact hu h100.symm
      have htdig : ∀ x ∈ t, (decDigitVal x).isSome := by
        intro x hx
        apply natDecChars_digits u
        rw [← ht]
        simp [hx]
      obtain ⟨r, hr⟩ := Option.isSome_iff_exists.mp (parseDigits_isSome t htne htdig)
      have hdropN : ('-' :: natDecChars u).drop 4 = t := by
        rw [← ht]
        rfl
      rw [hdropN, hr]
      simp [Option.bind]
  · -- chat prefixed, source prefixed
    rw [check_source_match_int]
    unfold sourceMatchNum
    rw [if_pos (Or.inl rfl)]
    rfl

/-- C6 counterexample data: the underlying id `100` breaks the symmetry.
`-100100` is the `-100`-prefixed chat form of id `100` and the source
string `str(-100)` is its bare negative form; the bare positive chat
form matches that source, but the prefixed chat form does not, because
`int(str(-100)[4:])` raises `ValueError` inside `check_source_match`. -/
theorem check_source_match_not_prefix_symmetric :
    (-100100 : Int) = -((pxNat 100 : Nat) : Int)
    ∧ intDecChars (-100 : Int) = ['-', '1', '0', '0']
    ∧ check_source_match 100 none (intDecChars (-100)) = true
    ∧ check_source_match (-100100) none (intDecChars (-100)) = false := by
  decide

theorem source_match_prefix_symmetric_witness :
    (5 : Nat) ≠ 100
    ∧ check_source_match 5 none (intDecChars (-((pxNat 5 : Nat) : Int))) = true :=
  ⟨by decide,
    source_match_prefix_symmetric 5 (by decide) 5 (by decide)
      (-((pxNat 5 : Nat) : Int)) (by decide)⟩

/-! ## Caption cleaning stages (src/bot.py lines 890-1013)

Each `re.sub` loop is modelled by a left-to-right scanner.  The regexes
involved are deterministic maximal-munch (each literal separator is
outside the character class that precedes it), except the phone pattern,
whose bounded quantifiers genuinely backtrack and are modelled by an
explicit backtracking matcher.  `\w`, `\d` and `\s` are modelled at
ASCII granularity (the identifiers and test strings involved are ASCII;
all structural lemmas are class-generic). -/

/-- Model of Python regex `\w` (ASCII granularity). -/
def isWordChar (c : Char) : Bool := c.isAlphanum || c = '_'

/-- Model of Python regex `\s` and of `str.strip` whitespace. -/
def pyIsSpace (c : Char) : Bool :=
  c = ' ' || c = '\t' || c = '\n' || c = '\r' || c = '\x0b' || c = '\x0c'

/-- Model of Python regex `\S`. -/
def nonspaceCls (c : Char) : Bool := !pyIsSpace c

/-- A token pattern: a literal head character and literal tail, followed by
at least one character of the run class (which the match consumes maximally). -/
abbrev TokPat := Char × List Char

/-- Try to match some pattern at the head of `l`: the literal, then at least
one run-class character.  Returns the remainder after the literal. -/
def tryPat (cls : Char → Bool) (pats : List TokPat) (l : List Char) : Option (List Char) :=
  match l with
  | [] => none
  | c :: rest =>
    pats.findSome? fun p =>
      if c = p.1 ∧ p.2.isPrefixOf rest ∧ (rest.drop p.2.length).head?.any cls then
        some (rest.drop p.2.length)
      else none

/-- One `re.sub(pat, '')` pass: scan left to right, removing each leftmost
match (the literal plus the maximal run).  Fuel-based; every match consumes
at least the literal head, so fuel `l.length` is always enough. -/
def subPatF (cls : Char → Bool) (pats : List TokPat) : Nat → List Char → List Char
  | 0, l => l
  | _+1, [] => []
  | f+1, c :: rest =>
    match tryPat cls pats (c :: rest) with
    | some after => subPatF cls pats f (after.dropWhile cls)
    | none => c :: subPatF cls pats f rest

/-- One `re.sub` pass with canonical fuel. -/
def subPat (cls : Char → Bool) (pats : List TokPat) (l : List Char) : List Char :=
  subPatF cls pats l.length l

/-- Patterns of the individual cleaning regexes. -/
def hashtagPats : List TokPat := [('#', [])]

def mentionPats : List TokPat := [('@', [])]

def urlPats1 : List TokPat := [('h', "ttps://".toList), ('h', "ttp://".toList)]

def urlPats2 : List TokPat := [('h', "ttp://".toList), ('h', "tt://".toList)]

def urlPats3 : List TokPat := [('w', "ww.".toList)]

def urlPats4 : List TokPat := [('t', ".me/".toList)]

def urlPats5 : List TokPat := [('t', "g://".toList)]

/-- Stage 1: strip `#hashtag` tokens (`re.sub(r'#\w+', '', t)`). -/
def cleanHashtag (l : List Char) : List Char := subPat isWordChar hashtagPats l

/-- Stage 2: strip `@mention` tokens (`re.sub(r'@\w+', '', t)`). -/
def cleanMention (l : List Char) : List Char := subPat isWordChar mentionPats l

/-- Stage 3: strip URLs; five `re.sub` passes in the order of the source. -/
def cleanLink (l : List Char) : List Char :=
  subPat nonspaceCls urlPats5
    (subPat nonspaceCls urlPats4
      (subPat nonspaceCls urlPats3
        (subPat nonspaceCls urlPats2
          (subPat nonspaceCls urlPats1 l))))

/-- The codepoint ranges of the source's emoji character class, in source
order; a single codepoint appears as a degenerate range.  Includes the
variation-selector and zero-width ranges listed in the class. -/
def emojiRanges : List (Nat × Nat) :=
  [(0x1F600, 0x1F64F), (0x1F300, 0x1F5FF), (0x1F680, 0x1F6FF),
   (0x1F700, 0x1F77F), (0x1F780, 0x1F7FF), (0x1F800, 0x1F8FF),
   (0x1F900, 0x1F9FF), (0x1FA00, 0x1FA6F), (0x1FA70, 0x1FAFF),
   (0x2702, 0x27B0), (0x1F1E0, 0x1F1FF), (0x2600, 0x26FF),
   (0x2700, 0x27BF), (0x1F000, 0x1F02F), (0x1F0A0, 0x1F0FF),
   (0xFE00, 0xFE0F), (0xFE0E, 0xFE0F), (0x200D, 0x200D),
   (0x2640, 0x2642), (0x23E9, 0x23F3), (0x23F8, 0x23FA),
   (0x2B50, 0x2B50), (0x2B55, 0x2B55), (0x2934, 0x2935),
   (0x2B05, 0x2B07), (0x2B1B, 0x2B1C), (0x3030, 0x3030),
   (0x303D, 0x303D), (0x3297, 0x3297), (0x3299, 0x3299),
   (0x24C2, 0x1F251), (0x2500, 0x2BEF), (0x231A, 0x231B),
   (0x25AA, 0x25AB), (0x25B6, 0x25B6), (0x25C0, 0x25C0),
   (0x25FB, 0x25FE), (0x2764, 0x2764), (0x2763, 0x2763),
   (0x2665, 0x2665), (0x1F493, 0x1F49F), (0x2714, 0x2714),
   (0x2716, 0x2716), (0x270A, 0x270D), (0x23CF, 0x23CF),
   (0x23ED, 0x23EF), (0x23F1, 0x23F2), (0x200B, 0x200F),
   (0x2028, 0x202F), (0x205F, 0x206F)]

/-- The emoji character class of the source: membership in any listed
codepoint range. -/
def isEmojiChar (c : Char) : Bool :=
  emojiRanges.any (fun r => r.1 ≤ c.toNat && c.toNat ≤ r.2)

/-- Stage 4: strip emoji.  `re.sub('[class]+', '', t)` removes maximal runs
of class characters, i.e. exactly the class characters. -/
def cleanEmoji (l : List Char) : List Char := l.filter (fun c => !isEmojiChar c)

/-! ### Phone stage: bounded-quantifier backtracking matcher -/

/-- One segment of the phone regex: an optional single character of a class,
or a greedy bounded digit group `\d{lo,hi}`. -/
inductive PhoneSeg where
  | optCls (p : Char → Bool)
  | digs (lo hi : Nat)

/-- The separator class `[-.\s]` of the phone pattern. -/
def phoneSepCls (c : Char) : Bool := c = '-' || c = '.' || pyIsSpace c

/-- Model of Python regex `\d` (ASCII granularity). -/
def isDigitChar (c : Char) : Bool := c.isDigit

/-- Segments of `re.sub(r'\+?\d{1,4}[-.\s]?\(?\d{1,3}\)?[-.\s]?\d{1,4}[-.\s]?\d{1,4}[-.\s]?\d{1,9}', '', t)`. -/
def phonePat1 : List PhoneSeg :=
  [.optCls (fun c => c = '+'), .digs 1 4, .optCls phoneSepCls,
   .optCls (fun c => c = '('), .digs 1 3, .optCls (fun c => c = ')'),
   .optCls phoneSepCls, .digs 1 4, .optCls phoneSepCls, .digs 1 4,
   .optCls phoneSepCls, .digs 1 9]

/-- Segments of `re.sub(r'\+?\d{10,15}', '', t)`. -/
def phonePat2 : List PhoneSeg := [.optCls (fun c => c = '+'), .digs 10 15]

/-- Descending candidate lengths `hi, hi-1, ..., lo` for a greedy bounded
digit group. -/
def descRange (hi lo : Nat) : List Nat := (List.range' lo (hi + 1 - lo)).reverse

/-- Backtracking matcher with Python preference order: an optional element
prefers to consume; a digit group prefers the longest length.  Returns the
remainder after a successful match at the head. -/
def matchSegs : List PhoneSeg → List Char → Option (List Char)
  | [], l => some l
  | .optCls p :: rest, l =>
    match l with
    | c :: l2 =>
      if p c then (matchSegs rest l2).orElse (fun _ => matchSegs rest (c :: l2))
      else matchSegs rest (c :: l2)
    | [] => matchSegs rest []
  | .digs lo hi :: rest, l =>
    let run := (l.takeWhile isDigitChar).length
    (descRange (min hi run) lo).findSome? (fun k =>
      if lo ≤ k then matchSegs rest (l.drop k) else none)

/-- One `re.sub` pass of a phone pattern (leftmost matches, scan resumes
after each match).  Fuel-based; both phone patterns contain a mandatory
digit group, so a match always consumes at least one character. -/
def subSegsF (segs : List PhoneSeg) : Nat → List Char → List Char
  | 0, l => l
  | _+1, [] => []
  | f+1, c :: rest =>
    match matchSegs segs (c :: rest) with
    | some rem => subSegsF segs f rem
    | none => c :: subSegsF segs f rest

/-- Stage 5: the phone cleaner, two `re.sub` passes in source order. -/
def cleanPhone (l : List Char) : List Char :=
  let s1 := subSegsF phonePat1 l.length l
  subSegsF phonePat2 s1.length s1

/-! ### Email stage -/

/-- The local-part class `[\w.+-]`. -/
def emailCls1 (c : Char) : Bool := isWordChar c || c = '.' || c = '+' || c = '-'

/-- The domain class `[\w-]`. -/
def emailCls2 (c : Char) : Bool := isWordChar c || c = '-'

/-- The suffix class `[\w.-]`. -/
def emailCls3 (c : Char) : Bool := isWordChar c || c = '.' || c = '-'

/-- Match `[\w.+-]+@[\w-]+\.[\w.-]+` at the head of `l` (deterministic
maximal munch: `@` and `.` lie outside the class that precedes them).
Returns the remainder after the match. -/
def emailMatch? (l : List Char) : Option (List Char) :=
  if (l.takeWhile emailCls1).isEmpty then none else
  if (l.dropWhile emailCls1).head? = some '@' then
    if ((l.dropWhile emailCls1).tail.takeWhile emailCls2).isEmpty then none else
    if ((l.dropWhile emailCls1).tail.dropWhile emailCls2).head? = some '.' then
      if (((l.dropWhile emailCls1).tail.dropWhile emailCls2).tail.takeWhile
          emailCls3).isEmpty then none
      else some (((l.dropWhile emailCls1).tail.dropWhile emailCls2).tail.dropWhile emailCls3)
    else none
  else none

/-- One `re.sub(r'[\w.+-]+@[\w-]+\.[\w.-]+', '', t)` pass. -/
def stripEmailF : Nat → List Char → List Char
  | 0, l => l
  | _+1, [] => []
  | f+1, c :: rest =>
    match emailMatch? (c :: rest) with
    | some rem => stripEmailF f rem
    | none => c :: stripEmailF f rest

/-- Stage 6: the email cleaner. -/
def cleanEmail (l : List Char) : List Char := stripEmailF l.length l

/-! ### Whitespace normalization (unconditional tail of the pipeline) -/

/-- Space or tab, the class of `re.sub(r'[ \t]+', ' ', t)`. -/
def spaceTab (c : Char) : Bool := c = ' ' || c = '\t'

/-- Collapse runs of spaces and tabs to a single space. -/
def collapseSpaceTabF : Nat → List Char → List Char
  | 0, l => l
  | _+1, [] => []
  | f+1, c :: rest =>
    if spaceTab c then ' ' :: collapseSpaceTabF f (rest.dropWhile spaceTab)
    else c :: collapseSpaceTabF f rest

/-- Split on newline characters, keeping empty lines (Python line structure
as seen by the MULTILINE anchors). -/
def splitNLF : Nat → List Char → List (List Char)
  | 0, l => [l]
  | f+1, l =>
    match l.dropWhile (fun c => !(c = '\n')) with
    | [] => [l.takeWhile (fun c => !(c = '\n'))]
    | _ :: rest2 => l.takeWhile (fun c => !(c = '\n')) :: splitNLF f rest2

/-- Strip leading and trailing plain spaces of one line
(`re.sub(r'^ +| +$', '', t, flags=re.MULTILINE)`). -/
def trimLineSpaces (l : List Char) : List Char :=
  ((l.dropWhile (fun c => c = ' ')).reverse.dropWhile (fun c => c = ' ')).reverse

/-- Per-line space trimming over the whole text. -/
def trimLines (l : List Char) : List Char :=
  List.intercalate ['\n'] ((splitNLF l.length l).map trimLineSpaces)

/-- Collapse runs of three or more newlines to exactly two
(`re.sub(r'\n{3,}', '\n\n', t)`). -/
def collapseNLF : Nat → List Char → List Char
  | 0, l => l
  | _+1, [] => []
  | f+1, c :: rest =>
    if c = '\n' then
      if 2 ≤ (rest.takeWhile (fun d => d = '\n')).length then
        '\n' :: '\n' :: collapseNLF f (rest.dropWhile (fun d => d = '\n'))
      else c :: collapseNLF f rest
    else c :: collapseNLF f rest

/-- Python `str.strip()`. -/
def pyStrip (l : List Char) : List Char :=
  ((l.dropWhile pyIsSpace).reverse.dropWhile pyIsSpace).reverse

/-- The unconditional cleanup tail of the pipeline. -/
def normalizeWhitespace (l : List Char) : List Char :=
  let a := collapseSpaceTabF l.length l
  let b := trimLines a
  let c := collapseNLF b.length b
  pyStrip c

/-- The complete caption transformation of `forward_handler` for a rule's
filter map: the toggled cleaning stages in source order, followed by the
unconditional whitespace normalization.  The result is `caption_text`. -/
def cleanPipeline (filters : String → Bool) (original : List Char) : List Char :=
  let t0 := if filters "clean_caption" then [] else original
  let t1 := if filters "clean_hashtag" && !t0.isEmpty then cleanHashtag t0 else t0
  let t2 := if filters "clean_mention" then cleanMention t1 else t1
  let t3 := if filters "clean_link" then cleanLink t2 else t2
  let t4 := if filters "clean_emoji" then cleanEmoji t3 else t3
  let t5 := if filters "clean_phone" then cleanPhone t4 else t4
  let t6 := if filters "clean_email" then cleanEmail t5 else t5
  normalizeWhitespace t6

/-! ## Message, rule and dispatch model (forward_handler, src/bot.py 733-1296) -/

/-- An incoming Telethon message as probed by the handler.  Media fields are
the truthiness of the corresponding attributes; `entities` holds the class
names of the message entities. -/
structure Msg where
  message : Option (List Char) := none
  text : Option (List Char) := none
  photo : Bool := false
  video_note : Bool := false
  video : Bool := false
  voice : Bool := false
  audio : Bool := false
  sticker : Bool := false
  gif : Bool := false
  document : Bool := false
  poll : Bool := false
  grouped_id : Option Nat := none
  forward : Bool := false
  reply_to : Bool := false
  entities : List String := []
  reply_markup : Bool := false
  web_preview : Bool := false
  media : Bool := false
deriving DecidableEq

/-- The `modify` configuration dictionary of a rule (DEFAULT_MODIFY,
src/bot.py lines 71-104).  Its comments document that a message is
skipped if it contains a block word, and skipped if it contains no
whitelist word; the dispatch engine is given this data as part of the
rule but (as the theorems below show) never reads it. -/
structure ModifyConfig where
  rename_enabled : Bool := false
  block_words_enabled : Bool := false
  block_words : List (List Char) := []
  whitelist_enabled : Bool := false
  whitelist_words : List (List Char) := []
  replace_enabled : Bool := false
  header_enabled : Bool := false
  header_text : List Char := []
  footer_enabled : Bool := false
  footer_text : List Char := []
  buttons_enabled : Bool := false
  delay_enabled : Bool := false
  delay_seconds : Nat := 0
  history_enabled : Bool := false
  history_count : Nat := 0
deriving DecidableEq

/-- A forwarding rule as read by the handler: sources, destinations, mode,
the filter dictionary (total map defaulting to `false`, i.e.
`filters.get(k, False)`) and the modify configuration. -/
structure Rule where
  id : Nat
  source_list : List (List Char)
  dest_list : List (List Char)
  forward_mode : String
  filters : String → Bool
  modify : ModifyConfig

/-- The original text of a message: `msg.message or msg.text or ""`. -/
def origText (m : Msg) : List Char := pyOrText m.message m.text

/-- Caption presence: `bool(msg.message or msg.text)`. -/
def hasCaption (m : Msg) : Bool := pyTruthy m.message || pyTruthy m.text

/-- Message-kind classification in the fixed precedence order of the
handler's `elif` chain. -/
def msgType (m : Msg) : Option String :=
  if m.photo then some "photo"
  else if m.video_note then some "video_note"
  else if m.video then some "video"
  else if m.voice then some "voice"
  else if m.audio then some "audio"
  else if m.sticker then some "sticker"
  else if m.gif then some "gif"
  else if m.document then some "document"
  else if m.poll then some "poll"
  else if pyTruthy m.text || pyTruthy m.message then some "text"
  else none

/-- Substring containment, modelling `re.search` of a literal alternative. -/
def containsSub (needle : List Char) : List Char → Bool
  | [] => needle.isPrefixOf []
  | c :: rest => needle.isPrefixOf (c :: rest) || containsSub needle rest

/-- The link filter condition: the `https?://|www\.|t\.me/|tg://` regex on
the raw text, or a URL-typed entity. -/
def msgHasLinks (m : Msg) : Bool :=
  let t := origText m
  containsSub "http://".toList t || containsSub "https://".toList t ||
  containsSub "www.".toList t || containsSub "t.me/".toList t ||
  containsSub "tg://".toList t ||
  m.entities.any (fun e => e = "MessageEntityUrl" || e = "MessageEntityTextUrl")

/-- Outcome of the per-rule filter/clean phase for one message: skipped by a
filter, diverted to the album aggregator, or dispatched with the cleaned
caption and the link-preview-removal flag. -/
inductive RuleStep where
  | skip
  | album (gid : Nat)
  | dispatch (captionText : List Char) (removeLinkPreview : Bool)
deriving DecidableEq

/-- The filter and cleaning phase of `forward_handler` for one matched rule,
in exact source order: photo_only / photo_with_text (inside the photo
classification), poll, album skip, album buffering, forward, reply, link,
button, custom emoji, the per-kind flag, then the cleaning pipeline. -/
def ruleStep (m : Msg) (r : Rule) : RuleStep :=
  if m.photo && r.filters "photo_only" && !hasCaption m then .skip
  else if m.photo && r.filters "photo_with_text" && hasCaption m then .skip
  else if m.poll && r.filters "poll" then .skip
  else if m.grouped_id.isSome && r.filters "album" then .skip
  else
    match m.grouped_id with
    | some gid => .album gid
    | none =>
      if m.forward && r.filters "forward" then .skip
      else if m.reply_to && r.filters "reply" then .skip
      else if r.filters "link" && msgHasLinks m then .skip
      else if m.reply_markup && r.filters "button" then .skip
      else if r.filters "emoji" && m.entities.any (fun e => e = "MessageEntityCustomEmoji")
        then .skip
      else if (match msgType m with | some k => r.filters k | none => false) then .skip
      else .dispatch (cleanPipeline r.filters (origText m)) (r.filters "clean_link")

/-- A client call that completed successfully at a destination. -/
inductive SendCall where
  | sendMessage (text : List Char) (linkPreview : Bool)
  | sendFile (caption : Option (List Char))
  | sendVoiceFile
  | sendVideoNote
  | sendAlbumFiles (count : Nat) (caption : Option (List Char))
  | forwardSingle
  | forwardAlbum (count : Nat)
deriving DecidableEq

/-- Per-destination outcome: the client calls that completed, and whether
`success_count` was incremented for this destination. -/
structure DestAttempt where
  sends : List SendCall
  counted : Bool
deriving DecidableEq

/-- The external world of one dispatch pass: which destinations resolve,
whether client send calls to a destination succeed, and whether media
downloads succeed.  A deterministic abstraction of the per-call outcomes. -/
structure Env where
  resolve : List Char → Bool
  sendOk : List Char → Bool
  downloadOk : Bool

/-- Is the media purely a link-preview card (no actual payload)? -/
def isOnlyWebPreview (m : Msg) : Bool :=
  m.web_preview && !m.photo && !m.video && !m.document && !m.audio && !m.voice &&
  !m.sticker && !m.gif && !m.video_note

/-- The kind chain of the copy branch after a successful download and with a
working transport: exactly one upload call per kind, with the caption
attached where the source attaches it.  The voice branch with non-empty
original text evaluates the unbound name `original_entities` after the
file upload: the resulting `NameError` is caught by the per-destination
handler, so the upload stands but `success_count` is not incremented. -/
def copyKindSend (m : Msg) (capOpt : Option (List Char)) (origEmpty : Bool) : DestAttempt :=
  if m.photo then ⟨[.sendFile capOpt], true⟩
  else if m.video_note then ⟨[.sendVideoNote], true⟩
  else if m.voice then
    (if origEmpty then ⟨[.sendVoiceFile], true⟩ else ⟨[.sendVoiceFile], false⟩)
  else if m.video then ⟨[.sendFile capOpt], true⟩
  else if m.gif then ⟨[.sendFile capOpt], true⟩
  else if m.sticker then ⟨[.sendFile none], true⟩
  else if m.audio then ⟨[.sendFile capOpt], true⟩
  else if m.document then ⟨[.sendFile capOpt], true⟩
  else ⟨[.sendFile capOpt], true⟩

/-- The per-destination body of the dispatch loop (src/bot.py 1030-1290).
Copy mode mirrors the kind chain of the source; a failing client call
raises and is caught per destination, so nothing later in the branch runs
and `success_count` is not incremented.  A failed download falls back to a
text message when there is caption text, but `continue`s without counting
the destination. -/
def attemptDest (env : Env) (m : Msg) (mode : String) (captionText : List Char)
    (original : List Char) (removePreview : Bool) (dest : List Char) : DestAttempt :=
  if !env.resolve dest then ⟨[], false⟩
  else if mode = "copy" then
    if m.media then
      if isOnlyWebPreview m then
        if env.sendOk dest then ⟨[.sendMessage captionText (!removePreview)], true⟩
        else ⟨[], false⟩
      else if !env.downloadOk then
        if !captionText.isEmpty && env.sendOk dest then
          ⟨[.sendMessage captionText (m.web_preview && !removePreview)], false⟩
        else ⟨[], false⟩
      else if !env.sendOk dest then ⟨[], false⟩
      else copyKindSend m (if captionText.isEmpty then none else some captionText)
        original.isEmpty
    else
      if !captionText.isEmpty then
        if env.sendOk dest then ⟨[.sendMessage captionText (!removePreview)], true⟩
        else ⟨[], false⟩
      else ⟨[], false⟩
  else
    if env.sendOk dest then ⟨[.forwardSingle], true⟩ else ⟨[], false⟩

/-- The `success_count` accumulated by the destination loop. -/
def dispatchSuccessCount (env : Env) (m : Msg) (mode : String) (cap orig : List Char)
    (rp : Bool) (dests : List (List Char)) : Nat :=
  dests.foldl
    (fun acc d => acc + (if (attemptDest env m mode cap orig rp d).counted then 1 else 0)) 0

/-! ## Album aggregation (album_cache / send_album_group, src/bot.py 665-840) -/

/-- One album buffer: the collected messages, the destination list and rule
captured from the first member, and the most recent non-empty caption. -/
structure AlbumBuf where
  messages : List Msg
  dest_list : List (List Char)
  rule : Rule
  caption_text : List Char

/-- The album cache, keyed by grouped-media id. -/
abbrev AlbumCache := List (Nat × AlbumBuf)

def cacheLookup (cache : AlbumCache) (gid : Nat) : Option AlbumBuf :=
  (cache.find? (fun e => e.1 = gid)).map (·.2)

def cacheRemove (cache : AlbumCache) (gid : Nat) : AlbumCache :=
  cache.filter (fun e => !(e.1 = gid))

def cacheUpdate (cache : AlbumCache) (gid : Nat) (buf : AlbumBuf) : AlbumCache :=
  cache.map (fun e => if e.1 = gid then (gid, buf) else e)

/-- The album branch of the handler, executed under `album_lock`: the first
member creates the buffer (capturing rule, destinations and raw caption),
later members append and overwrite the caption when they carry one. -/
def albumAdd (cache : AlbumCache) (gid : Nat) (m : Msg) (r : Rule) : AlbumCache :=
  match cacheLookup cache gid with
  | none => (gid, ⟨[m], r.dest_list, r, origText m⟩) :: cache
  | some buf =>
    cacheUpdate cache gid
      { buf with
        messages := buf.messages ++ [m]
        caption_text :=
          if pyTruthy m.message || pyTruthy m.text then origText m else buf.caption_text }

/-- Delivery outcome of `send_album_group` for one destination. -/
def albumSendDest (env : Env) (mode : String) (msgs : List Msg) (dest : List Char) : Bool :=
  if !env.resolve dest then false
  else if mode = "copy" then
    if env.downloadOk && !msgs.isEmpty then env.sendOk dest else false
  else env.sendOk dest

/-- The delivered unit of one album flush. -/
structure AlbumDispatch where
  messages : List Msg
  caption : List Char
  perDest : List (List Char × Bool)

/-- Embedding of `send_album_group`: under the album lock the buffer is
popped from the cache (a missing id is a no-op), an empty buffer flushes to
nothing, otherwise every destination is attempted with the captured
messages and raw caption.  The function contains no counter update, as the
source contains none. -/
def albumFlush (env : Env) (cache : AlbumCache) (gid : Nat) :
    AlbumCache × Option AlbumDispatch :=
  match cacheLookup cache gid with
  | none => (cache, none)
  | some buf =>
    let cache2 := cacheRemove cache gid
    if buf.messages.isEmpty then (cache2, none)
    else
      (cache2,
       some ⟨buf.messages, buf.caption_text,
         buf.dest_list.map
           (fun d => (d, albumSendDest env buf.rule.forward_mode buf.messages d))⟩)

/-! ## Engine state: album cache plus the per-rule forward counters -/

/-- Result of one per-rule pass over one incoming message. -/
inductive PassResult where
  | skipped
  | buffered (gid : Nat)
  | dispatched (succ : Nat)
deriving DecidableEq

/-- Engine state: the album cache and the per-rule-id forward counters
(the `forward_count` column updated by `increment_forward_count`). -/
structure EngineState where
  cache : AlbumCache
  counter : Nat → Nat

def bumpCounter (f : Nat → Nat) (rid : Nat) : Nat → Nat :=
  fun i => if i = rid then f i + 1 else f i

/-- One rule's processing of one incoming message, including the source
match, the filter/clean phase, the dispatch loop, and the single counter
increment performed when at least one destination succeeded. -/
def handleMsgRule (env : Env) (chatId : Int) (chatU : Option (List Char)) (m : Msg)
    (r : Rule) (st : EngineState) : EngineState × Option PassResult :=
  if !(r.source_list.any (fun s => check_source_match chatId chatU s)) then (st, none)
  else
    match ruleStep m r with
    | .skip => (st, some .skipped)
    | .album gid => ({ st with cache := albumAdd st.cache gid m r }, some (.buffered gid))
    | .dispatch cap rp =>
      let succ := dispatchSuccessCount env m r.forward_mode cap (origText m) rp r.dest_list
      (if succ > 0 then { st with counter := bumpCounter st.counter r.id } else st,
       some (.dispatched succ))

/-- The flush-timer callback on the engine state: `send_album_group` pops
and dispatches the buffer; the counter component is untouched because the
source path performs no counter update. -/
def fireFlush (env : Env) (gid : Nat) (st : EngineState) :
    EngineState × Option AlbumDispatch :=
  let r := albumFlush env st.cache gid
  ({ st with cache := r.1 }, r.2)

/-! ## Dispatch helper lemmas -/

/-- Every branch of the per-destination body yields either a failed attempt
with no calls or a single client call. -/
theorem copyKindSend_shape (m : Msg) (capOpt : Option (List Char)) (origEmpty : Bool) :
    ∃ x b, copyKindSend m capOpt origEmpty = ⟨[x], b⟩ := by
  unfold copyKindSend
  split_ifs <;> simp

theorem attemptDest_shape (env : Env) (m : Msg) (mode : String)
    (cap orig : List Char) (rp : Bool) (dest : List Char) :
    attemptDest env m mode cap orig rp dest = ⟨[], false⟩
    ∨ ∃ x b, attemptDest env m mode cap orig rp dest = ⟨[x], b⟩ := by
  unfold attemptDest
  split_ifs <;> first
    | (left; rfl)
    | (right; exact copyKindSend_shape m _ _)
    | (right; simp)

/-- A counted destination attempt performed at least one client call. -/
theorem attemptDest_counted_sends (env : Env) (m : Msg) (mode : String)
    (cap orig : List Char) (rp : Bool) (dest : List Char)
    (h : (attemptDest env m mode cap orig rp dest).counted = true) :
    (attemptDest env m mode cap orig rp dest).sends ≠ [] := by
  rcases attemptDest_shape env m mode cap orig rp dest with heq | ⟨x, b, heq⟩ <;>
    rw [heq] at h ⊢ <;> simp_all

/-- The destination loop accumulator, destination by destination. -/
theorem dispatchSuccessCount_cons (env : Env) (m : Msg) (mode : String)
    (cap orig : List Char) (rp : Bool) (d : List Char) (ds : List (List Char)) :
    dispatchSuccessCount env m mode cap orig rp (d :: ds)
      = (if (attemptDest env m mode cap orig rp d).counted then 1 else 0)
        + dispatchSuccessCount env m mode cap orig rp ds := by
  unfold dispatchSuccessCount
  simp only [List.foldl_cons, Nat.zero_add]
  have key : ∀ (l : List (List Char)) (a b : Nat),
      l.foldl (fun acc x => acc + (if (attemptDest env m mode cap orig rp x).counted then 1 else 0)) (a + b)
      = a + l.foldl (fun acc x => acc + (if (attemptDest env m mode cap orig rp x).counted then 1 else 0)) b := by
    intro l
    induction l with
    | nil => intro a b; rfl
    | cons x xs ih =>
      intro a b
      simp only [List.foldl_cons]
      rw [Nat.add_assoc, ih]
  have := key ds (if (attemptDest env m mode cap orig rp d).counted then 1 else 0) 0
  rw [Nat.add_zero] at this
  rw [this]

/-- An unresolvable destination is attempted and fails: no calls, not counted. -/
theorem attemptDest_unresolved (env : Env) (m : Msg) (mode : String)
    (cap orig : List Char) (rp : Bool) (dest : List Char)
    (h : env.resolve dest = false) :
    attemptDest env m mode cap orig rp dest = ⟨[], false⟩ := by
  unfold attemptDest
  simp [h]

/-! ## Concrete scenario data used by the closed theorems -/

/-- An environment in which every identifier resolves and every call
succeeds. -/
def envAll : Env := ⟨fun _ => true, fun _ => true, true⟩

/-- The initial engine state: no album buffers, all counters zero. -/
def st0 : EngineState := ⟨[], fun _ => 0⟩

/-- The scenario rule of the spec: sources `@chanA` and `-1001111111111`,
destination `@chanB`, copy mode, filter `photo_only`, cleaners
`clean_hashtag`, `clean_mention`, `clean_link`. -/
def ruleScenario : Rule :=
  { id := 1
    source_list := ["@chanA".toList, "-1001111111111".toList]
    dest_list := ["@chanB".toList]
    forward_mode := "copy"
    filters := fun k =>
      k = "photo_only" || k = "clean_hashtag" || k = "clean_mention" || k = "clean_link"
    modify := {} }

/-- The scenario text message. -/
def msgScenario : Msg := { message := some "Hello #world @user http://x.com".toList }

/-- C9: the scenario transformations: the cleaned caption is exactly
`"Hello"`, the rule matches the numeric chat id and dispatches, the copy
branch sends that text to the resolved destination, and the counter
records one forward. -/
theorem scenario_clean_copy_dispatch :
    cleanPipeline ruleScenario.filters (origText msgScenario) = "Hello".toList
    ∧ ruleStep msgScenario ruleScenario = .dispatch "Hello".toList true
    ∧ (handleMsgRule envAll (-1001111111111) none msgScenario ruleScenario st0).2
        = some (.dispatched 1)
    ∧ attemptDest envAll msgScenario "copy" "Hello".toList (origText msgScenario) true
        "@chanB".toList
        = ⟨[.sendMessage "Hello".toList false], true⟩
    ∧ (handleMsgRule envAll (-1001111111111) none msgScenario ruleScenario st0).1.counter 1
        = 1 := by
  decide

/-- C10: in copy mode, a voice message with non-empty original text uploads
the voice file and then hits the unbound name `original_entities` while
preparing the trailing text message, so no text is sent and the
destination is not counted as a success. -/
theorem voice_copy_trailing_text_lost
    (env : Env) (m : Msg) (cap : List Char) (rp : Bool) (dest : List Char)
    (hres : env.resolve dest = true) (hdl : env.downloadOk = true)
    (hsend : env.sendOk dest = true) (hmedia : m.media = true)
    (hvoice : m.voice = true) (hph : m.photo = false) (hvn : m.video_note = false)
    (horig : origText m ≠ []) :
    attemptDest env m "copy" cap (origText m) rp dest = ⟨[.sendVoiceFile], false⟩ := by
  have hwp : isOnlyWebPreview m = false := by
    unfold isOnlyWebPreview
    simp [hvoice]
  have hoe : (origText m).isEmpty = false := by
    cases h : origText m with
    | nil => exact absurd h horig
    | cons a as => rfl
  unfold attemptDest
  rw [hres, hdl, hsend, hmedia, hwp]
  unfold copyKindSend
  rw [hph, hvn, hvoice, hoe]
  simp

theorem voice_copy_trailing_text_lost_witness :
    attemptDest envAll
      { message := some "note".toList, voice := true, media := true }
      "copy" "note".toList
      (origText { message := some "note".toList, voice := true, media := true })
      false "@d".toList
      = ⟨[.sendVoiceFile], false⟩ :=
  voice_copy_trailing_text_lost envAll
    { message := some "note".toList, voice := true, media := true }
    "note".toList false "@d".toList rfl rfl rfl rfl rfl rfl rfl (by decide)

/-- C5: destination isolation: with two destinations, a resolution failure
on the first does not prevent the delivery attempt on the second; if the
second is counted, the pass yields exactly one success, the successful
destination received at least one client call, and the rule counter is
incremented exactly once. -/
theorem partial_destination_failure_isolated
    (env : Env) (m : Msg) (r : Rule) (st : EngineState)
    (chatId : Int) (chatU : Option (List Char)) (cap : List Char) (rp : Bool)
    (d1 d2 : List Char)
    (hdl : r.dest_list = [d1, d2])
    (hd1 : env.resolve d1 = false)
    (hd2 : (attemptDest env m r.forward_mode cap (origText m) rp d2).counted = true)
    (hmatch : r.source_list.any (fun s => check_source_match chatId chatU s) = true)
    (hstep : ruleStep m r = .dispatch cap rp) :
    dispatchSuccessCount env m r.forward_mode cap (origText m) rp r.dest_list = 1
    ∧ (attemptDest env m r.forward_mode cap (origText m) rp d2).sends ≠ []
    ∧ (handleMsgRule env chatId chatU m r st).2 = some (.dispatched 1)
    ∧ (handleMsgRule env chatId chatU m r st).1.counter r.id = st.counter r.id + 1 := by
  have hcount : dispatchSuccessCount env m r.forward_mode cap (origText m) rp r.dest_list
      = 1 := by
    rw [hdl, dispatchSuccessCount_cons, dispatchSuccessCount_cons,
      attemptDest_unresolved env m r.forward_mode cap (origText m) rp d1 hd1]
    simp [hd2, dispatchSuccessCount]
  refine ⟨hcount, attemptDest_counted_sends env m r.forward_mode cap (origText m) rp d2 hd2,
    ?_, ?_⟩
  · unfold handleMsgRule
    rw [hmatch, hstep]
    simp [hcount]
  · unfold handleMsgRule
    rw [hmatch, hstep]
    simp only [Bool.not_true, Bool.false_eq_true, if_false, hcount]
    simp [bumpCounter]

def ruleC5 : Rule :=
  { id := 3
    source_list := ["1".toList]
    dest_list := ["bad".toList, "@d".toList]
    forward_mode := "forward"
    filters := fun _ => false
    modify := {} }

def envC5 : Env := ⟨fun d => d = "@d".toList, fun _ => true, true⟩

def msgHi : Msg := { message := some "hi".toList }

theorem partial_destination_failure_isolated_witness :
    dispatchSuccessCount envC5 msgHi ruleC5.forward_mode "hi".toList (origText msgHi) false
      ruleC5.dest_list = 1
    ∧ (attemptDest envC5 msgHi ruleC5.forward_mode "hi".toList (origText msgHi) false
        "@d".toList).sends ≠ []
    ∧ (handleMsgRule envC5 1 none msgHi ruleC5 st0).2 = some (.dispatched 1)
    ∧ (handleMsgRule envC5 1 none msgHi ruleC5 st0).1.counter ruleC5.id
        = st0.counter ruleC5.id + 1 :=
  partial_destination_failure_isolated envC5 msgHi ruleC5 st0 1 none "hi".toList false
    "bad".toList "@d".toList (by decide) (by decide) (by decide) (by decide) (by decide)

/-! ## Block words and whitelist (C2)

The configuration layer stores `block_words` and `whitelist_words` in the
rule's `modify` dictionary and its comments document the skip behaviour,
but `forward_handler` never reads `rule['modify']`: no block-word or
whitelist check exists anywhere on the dispatch path. -/

def ruleBlock : Rule :=
  { id := 2
    source_list := ["1".toList]
    dest_list := ["@d".toList]
    forward_mode := "forward"
    filters := fun _ => false
    modify :=
      { block_words_enabled := true
        block_words := ["spam".toList]
        whitelist_enabled := true
        whitelist_words := ["news".toList] } }

def msgSpam : Msg := { message := some "buy spam now".toList }

/-- C2 failing input: a rule with block-words enabled and the block word
`"spam"` present in the caption (and a whitelist the caption does not
satisfy) still dispatches the message, delivers it, and increments the
counter: the engine never consults the modify configuration. -/
theorem block_words_ignored_failing_input :
    containsSub "spam".toList (origText msgSpam) = true
    ∧ ruleBlock.modify.block_words_enabled = true
    ∧ "spam".toList ∈ ruleBlock.modify.block_words
    ∧ ruleBlock.modify.whitelist_enabled = true
    ∧ containsSub "news".toList (origText msgSpam) = false
    ∧ (handleMsgRule envAll 1 none msgSpam ruleBlock st0).2 = some (.dispatched 1)
    ∧ (handleMsgRule envAll 1 none msgSpam ruleBlock st0).1.counter 2 = 1 := by
  decide

/-! ## Album cache lemmas -/

theorem cacheLookup_cons_self (cache : AlbumCache) (gid : Nat) (buf : AlbumBuf) :
    cacheLookup ((gid, buf) :: cache) gid = some buf := by
  simp [cacheLookup, List.find?]

theorem cacheLookup_update_isSome (cache : AlbumCache) (gid : Nat) (b : AlbumBuf)
    (h : (cacheLookup cache gid).isSome) :
    cacheLookup (cacheUpdate cache gid b) gid = some b := by
  induction cache with
  | nil => simp [cacheLookup] at h
  | cons e rest ih =>
    by_cases he : e.1 = gid
    · simp [cacheLookup, cacheUpdate, List.find?, he]
    · have hb : (decide (e.1 = gid)) = false := by simp [he]
      simp only [cacheUpdate, List.map_cons, if_neg he]
      simp only [cacheLookup, List.find?, hb] at h ⊢
      exact ih h

theorem cacheLookup_remove (cache : AlbumCache) (gid : Nat) :
    cacheLookup (cacheRemove cache gid) gid = none := by
  induction cache with
  | nil => rfl
  | cons e rest ih =>
    by_cases he : e.1 = gid
    · simpa [cacheRemove, he] using ih
    · have hb : (decide (e.1 = gid)) = false := by simp [he]
      simp only [cacheRemove, List.filter_cons, hb, Bool.not_false, if_true]
      simpa [cacheLookup, List.find?, hb] using ih

/-- The caption captured by the album buffer: the most recent member whose
raw text is non-empty overwrites it. -/
def lastCaption (init : List Char) (ms : List Msg) : List Char :=
  ms.foldl
    (fun acc m => if pyTruthy m.message || pyTruthy m.text then origText m else acc) init

/-- Folding member arrivals into an existing buffer appends every message in
order and tracks the latest non-empty raw caption. -/
theorem albumAdd_fold_gen (r : Rule) (gid : Nat) :
    ∀ (ms : List Msg) (cache : AlbumCache) (buf : AlbumBuf),
      cacheLookup cache gid = some buf →
      cacheLookup (ms.foldl (fun c mm => albumAdd c gid mm r) cache) gid
        = some { buf with
            messages := buf.messages ++ ms
            caption_text := lastCaption buf.caption_text ms } := by
  intro ms
  induction ms with
  | nil =>
    intro cache buf h
    simpa [lastCaption] using h
  | cons m rest ih =>
    intro cache buf h
    simp only [List.foldl_cons]
    have hstep : albumAdd cache gid m r
        = cacheUpdate cache gid
            { buf with
              messages := buf.messages ++ [m]
              caption_text :=
                if pyTruthy m.message || pyTruthy m.text then origText m
                else buf.caption_text } := by
      unfold albumAdd
      rw [h]
    rw [hstep]
    have hlook := cacheLookup_update_isSome cache gid
      { buf with
        messages := buf.messages ++ [m]
        caption_text :=
          if pyTruthy m.message || pyTruthy m.text then origText m
          else buf.caption_text } (by rw [h]; rfl)
    have := ih (cacheUpdate cache gid _) _ hlook
    rw [this]
    simp only [lastCaption, List.foldl_cons, List.append_assoc, List.singleton_append]

/-- A full collection run starting from a fresh group id: the first member
creates the buffer, the rest append. -/
theorem albumAdd_fold_fresh (r : Rule) (gid : Nat) (cache : AlbumCache)
    (hfresh : cacheLookup cache gid = none) (m0 : Msg) (rest : List Msg) :
    cacheLookup ((m0 :: rest).foldl (fun c mm => albumAdd c gid mm r) cache) gid
      = some ⟨m0 :: rest, r.dest_list, r, lastCaption (origText m0) rest⟩ := by
  simp only [List.foldl_cons]
  have hstep : albumAdd cache gid m0 r = (gid, ⟨[m0], r.dest_list, r, origText m0⟩) :: cache := by
    unfold albumAdd
    rw [hfresh]
  rw [hstep]
  have := albumAdd_fold_gen r gid rest ((gid, ⟨[m0], r.dest_list, r, origText m0⟩) :: cache)
    ⟨[m0], r.dest_list, r, origText m0⟩ (cacheLookup_cons_self _ _ _)
  rw [this]
  simp

theorem albumFlush_missing (env : Env) (cache : AlbumCache) (gid : Nat)
    (h : cacheLookup cache gid = none) :
    albumFlush env cache gid = (cache, none) := by
  unfold albumFlush
  rw [h]

theorem albumFlush_found (env : Env) (cache : AlbumCache) (gid : Nat) (buf : AlbumBuf)
    (h : cacheLookup cache gid = some buf) (hne : buf.messages ≠ []) :
    albumFlush env cache gid
      = (cacheRemove cache gid,
         some ⟨buf.messages, buf.caption_text,
           buf.dest_list.map
             (fun d => (d, albumSendDest env buf.rule.forward_mode buf.messages d))⟩) := by
  unfold albumFlush
  rw [h]
  have hie : buf.messages.isEmpty = false := by
    cases hb : buf.messages with
    | nil => exact absurd hb hne
    | cons a as => rfl
  simp [hie]

/-- After any flush, the group id is gone from the cache. -/
theorem albumFlush_clears (env : Env) (cache : AlbumCache) (gid : Nat) :
    cacheLookup (albumFlush env cache gid).1 gid = none := by
  unfold albumFlush
  cases h : cacheLookup cache gid with
  | none => simpa using h
  | some buf =>
    by_cases hb : buf.messages.isEmpty
    · simpa [hb] using cacheLookup_remove cache gid
    · simpa [hb] using cacheLookup_remove cache gid

/-! ## C4: album buffer invariants -/

/-- C4: starting from a fresh group id, the collection run buffers every
member; the flush dispatches exactly the full ordered member list; a
second flush of the same id is a no-op (the buffer was atomically removed
under the album lock); and each member arrival is a pure buffering pass for
the rule (no dispatch). -/
theorem album_buffer_flush_once_all_members
    (env : Env) (r : Rule) (gid : Nat) (cache : AlbumCache)
    (hfresh : cacheLookup cache gid = none) (m0 : Msg) (rest : List Msg) :
    (∃ d : AlbumDispatch,
      (albumFlush env ((m0 :: rest).foldl (fun c mm => albumAdd c gid mm r) cache) gid).2
        = some d
      ∧ d.messages = m0 :: rest)
    ∧ albumFlush env
        (albumFlush env ((m0 :: rest).foldl (fun c mm => albumAdd c gid mm r) cache) gid).1
        gid
      = ((albumFlush env ((m0 :: rest).foldl (fun c mm => albumAdd c gid mm r) cache) gid).1,
         none)
    ∧ ∀ (env2 : Env) (chatId : Int) (chatU : Option (List Char)) (st : EngineState) (mm : Msg),
        r.source_list.any (fun s => check_source_match chatId chatU s) = true →
        ruleStep mm r = .album gid →
        handleMsgRule env2 chatId chatU mm r st
          = ({ st with cache := albumAdd st.cache gid mm r }, some (.buffered gid)) := by
  have hbuf := albumAdd_fold_fresh r gid cache hfresh m0 rest
  have hflush := albumFlush_found env _ gid _ hbuf (by simp)
  refine ⟨⟨_, by rw [hflush], rfl⟩, ?_, ?_⟩
  · exact albumFlush_missing env _ gid (albumFlush_clears env _ gid)
  · intro env2 chatId chatU st mm hmatch hstep
    unfold handleMsgRule
    rw [hmatch, hstep]
    rfl

theorem album_buffer_flush_once_all_members_witness :
    (∃ d : AlbumDispatch,
      (albumFlush envAll
        (([{ photo := true, media := true, grouped_id := some 5 },
           { video := true, media := true, grouped_id := some 5 },
           { photo := true, media := true, grouped_id := some 5,
             message := some "cap".toList }] :
            List Msg).foldl (fun c mm => albumAdd c 5 mm ruleScenario) []) 5).2 = some d
      ∧ d.messages
        = [{ photo := true, media := true, grouped_id := some 5 },
           { video := true, media := true, grouped_id := some 5 },
           { photo := true, media := true, grouped_id := some 5,
             message := some "cap".toList }]) :=
  (album_buffer_flush_once_all_members envAll ruleScenario 5 [] rfl
    { photo := true, media := true, grouped_id := some 5 }
    [{ video := true, media := true, grouped_id := some 5 },
     { photo := true, media := true, grouped_id := some 5,
       message := some "cap".toList }]).1

/-! ## C3: the album path bypasses the cleaning pipeline -/

/-- C3 amended: the caption handed to dispatch when an album flushes is the
captured raw caption (the latest member's non-empty original text), not
the output of the cleaning pipeline. -/
theorem album_flush_caption_raw
    (env : Env) (r : Rule) (gid : Nat) (cache : AlbumCache)
    (hfresh : cacheLookup cache gid = none) (m0 : Msg) (rest : List Msg) :
    ((albumFlush env ((m0 :: rest).foldl (fun c mm => albumAdd c gid mm r) cache) gid).2).map
        (fun d => d.caption)
      = some (lastCaption (origText m0) rest) := by
  rw [albumFlush_found env _ gid _ (albumAdd_fold_fresh r gid cache hfresh m0 rest) (by simp)]
  rfl

def ruleHash : Rule :=
  { id := 4
    source_list := ["1".toList]
    dest_list := ["@d".toList]
    forward_mode := "copy"
    filters := fun k => k = "clean_hashtag"
    modify := {} }

def msgAlbumHash : Msg :=
  { message := some "Hello #world".toList, photo := true, media := true, grouped_id := some 3 }

/-- C3 counterexample: with the hashtag cleaner enabled, the single-message
pipeline would produce `"Hello"`, but the album flush hands the raw
captured caption `"Hello #world"` to dispatch. -/
theorem album_caption_bypasses_cleaning_counterexample :
    cleanPipeline ruleHash.filters (origText msgAlbumHash) = "Hello".toList
    ∧ ruleStep msgAlbumHash ruleHash = .album 3
    ∧ ((albumFlush envAll (albumAdd [] 3 msgAlbumHash ruleHash) 3).2).map (fun d => d.caption)
        = some "Hello #world".toList
    ∧ some "Hello".toList
        ≠ ((albumFlush envAll (albumAdd [] 3 msgAlbumHash ruleHash) 3).2).map
            (fun d => d.caption) := by
  decide

theorem album_flush_caption_raw_witness :
    ((albumFlush envAll
        (([msgAlbumHash] : List Msg).foldl (fun c mm => albumAdd c 3 mm ruleHash) []) 3).2).map
        (fun d => d.caption)
      = some (lastCaption (origText msgAlbumHash) []) :=
  album_flush_caption_raw envAll ruleHash 3 [] rfl msgAlbumHash []

/-! ## C1: counter increments -/

/-- C1 amended: a single-message dispatch pass increments the rule's
counter exactly once when at least one destination succeeds and not at
all otherwise — but an album flush never increments the counter, because
`send_album_group` contains no counter update. -/
theorem forward_counter_once_per_single_pass
    (env : Env) (chatId : Int) (chatU : Option (List Char)) (m : Msg) (r : Rule)
    (st : EngineState) (cap : List Char) (rp : Bool)
    (hmatch : r.source_list.any (fun s => check_source_match chatId chatU s) = true)
    (hstep : ruleStep m r = .dispatch cap rp) :
    ((0 < dispatchSuccessCount env m r.forward_mode cap (origText m) rp r.dest_list →
        (handleMsgRule env chatId chatU m r st).1.counter r.id = st.counter r.id + 1)
      ∧ (dispatchSuccessCount env m r.forward_mode cap (origText m) rp r.dest_list = 0 →
        (handleMsgRule env chatId chatU m r st).1.counter r.id = st.counter r.id))
    ∧ ∀ (env2 : Env) (gid : Nat) (st2 : EngineState),
        (fireFlush env2 gid st2).1.counter = st2.counter := by
  constructor
  · constructor
    · intro hpos
      unfold handleMsgRule
      rw [hmatch, hstep]
      simp only [Bool.not_true, Bool.false_eq_true, if_false]
      rw [if_pos hpos]
      simp [bumpCounter]
    · intro hzero
      unfold handleMsgRule
      rw [hmatch, hstep]
      simp only [Bool.not_true, Bool.false_eq_true, if_false]
      rw [if_neg (by omega)]
  · intro env2 gid st2
    rfl

theorem forward_counter_once_witness :
    (0 < dispatchSuccessCount envAll msgHi ruleC5.forward_mode "hi".toList (origText msgHi)
        false ruleC5.dest_list →
      (handleMsgRule envAll 1 none msgHi ruleC5 st0).1.counter ruleC5.id
        = st0.counter ruleC5.id + 1)
    ∧ (0 < dispatchSuccessCount envAll msgHi ruleC5.forward_mode "hi".toList (origText msgHi)
        false ruleC5.dest_list) :=
  ⟨((forward_counter_once_per_single_pass envAll 1 none msgHi ruleC5 st0 "hi".toList false
      (by decide) (by decide)).1).1,
   by decide⟩

def ruleAlbumFwd : Rule :=
  { id := 5
    source_list := ["1".toList]
    dest_list := ["@d".toList]
    forward_mode := "forward"
    filters := fun _ => false
    modify := {} }

def msgAlbumPhoto : Msg := { photo := true, media := true, grouped_id := some 7 }

/-- C1 counterexample: an album batch whose flush succeeds at its
destination increments the counter zero times, not once: the arrival pass
only buffers, and `send_album_group` never touches the counter. -/
theorem album_delivery_counter_not_incremented :
    (handleMsgRule envAll 1 none msgAlbumPhoto ruleAlbumFwd st0).2 = some (.buffered 7)
    ∧ ((fireFlush envAll 7 (handleMsgRule envAll 1 none msgAlbumPhoto ruleAlbumFwd st0).1).2).map
        (fun d => d.perDest) = some [("@d".toList, true)]
    ∧ (fireFlush envAll 7
        (handleMsgRule envAll 1 none msgAlbumPhoto ruleAlbumFwd st0).1).1.counter 5 = 0 := by
  decide

/-! ## C7: the per-kind filter flag -/

set_option maxHeartbeats 2000000 in
/-- With the kind flag set, the filter phase never reaches dispatch: it
either skips, or — when the message carries a grouped-media id and the
album filter is off — diverts to the album aggregator before the kind
check. -/
theorem ruleStep_kind_filtered (m : Msg) (r : Rule) (k : String)
    (hk : msgType m = some k) (hf : r.filters k = true) :
    ruleStep m r = .skip ∨ ∃ g, m.grouped_id = some g ∧ ruleStep m r = .album g := by
  unfold ruleStep
  simp only [hk, hf]
  cases hg : m.grouped_id with
  | some g =>
    split_ifs <;> first
      | (left; rfl)
      | (right; exact ⟨g, rfl, rfl⟩)
  | none =>
    split_ifs <;> (left; rfl)

/-- C7 amended: if the filter flag for the classified kind is on, a
non-grouped message is skipped for the rule, and for every message the
rule's counter does not increase in the arrival pass (grouped messages are
diverted to the aggregator before the kind check, and the album flush never
increments either). -/
theorem kind_filter_skip_and_counter (m : Msg) (r : Rule) (k : String)
    (hk : msgType m = some k) (hf : r.filters k = true) :
    (m.grouped_id = none → ruleStep m r = .skip)
    ∧ (∀ (env : Env) (chatId : Int) (chatU : Option (List Char)) (st : EngineState),
        (handleMsgRule env chatId chatU m r st).1.counter = st.counter)
    ∧ (∀ (env : Env) (gid : Nat) (st : EngineState),
        (fireFlush env gid st).1.counter = st.counter) := by
  refine ⟨?_, ?_, fun env gid st => rfl⟩
  · intro hg
    rcases ruleStep_kind_filtered m r k hk hf with h | ⟨g, hgg, _⟩
    · exact h
    · rw [hg] at hgg
      exact absurd hgg (by simp)
  · intro env chatId chatU st
    unfold handleMsgRule
    by_cases hmatch : r.source_list.any (fun s => check_source_match chatId chatU s) = true
    · rw [hmatch]
      rcases ruleStep_kind_filtered m r k hk hf with h | ⟨g, _, h⟩ <;> rw [h] <;> rfl
    · rw [Bool.not_eq_true] at hmatch
      rw [hmatch]
      rfl

def rulePhotoSkip : Rule :=
  { id := 6
    source_list := ["1".toList]
    dest_list := ["@d".toList]
    forward_mode := "forward"
    filters := fun k => k = "photo"
    modify := {} }

def msgGroupedPhoto : Msg := { photo := true, media := true, grouped_id := some 9 }

/-- C7 counterexample: a grouped photo with the photo flag on is not
skipped — it is buffered before the kind check and the album flush
delivers it to the destination. -/
theorem kind_filter_grouped_not_skipped_counterexample :
    msgType msgGroupedPhoto = some "photo"
    ∧ rulePhotoSkip.filters "photo" = true
    ∧ ruleStep msgGroupedPhoto rulePhotoSkip = .album 9
    ∧ ((albumFlush envAll (albumAdd [] 9 msgGroupedPhoto rulePhotoSkip) 9).2).map
        (fun d => (d.messages, d.perDest))
      = some ([msgGroupedPhoto], [("@d".toList, true)]) := by
  decide

def msgPlainPhoto : Msg := { photo := true, media := true }

theorem kind_filter_skip_witness :
    ruleStep msgPlainPhoto rulePhotoSkip = .skip
    ∧ (handleMsgRule envAll 1 none msgPlainPhoto rulePhotoSkip st0).1.counter = st0.counter :=
  ⟨(kind_filter_skip_and_counter msgPlainPhoto rulePhotoSkip "photo" (by decide)
        (by decide)).1 rfl,
   ((kind_filter_skip_and_counter msgPlainPhoto rulePhotoSkip "photo" (by decide)
        (by decide)).2).1 envAll 1 none st0⟩

/-! ## Idempotence of the cleaning stages (C8)

The scanners `subPatF` and `stripEmailF` are analysed through unfolding
lemmas (the fuel argument is invariant once it is at least the input
length) and a transfer argument: a match found in a scanner's output at a
given position induces a match at the same position of the input, because
everything a removal deletes ends at a class boundary. -/

theorem length_dropWhile_le (p : Char → Bool) (l : List Char) :
    (l.dropWhile p).length ≤ l.length := by
  induction l with
  | nil => simp
  | cons c r ih =>
    by_cases h : p c
    · simp only [List.dropWhile_cons, h, if_true, List.length_cons]
      exact Nat.le_succ_of_le ih
    · simp [List.dropWhile_cons, h]

theorem head?_dropWhile_not (p : Char → Bool) (l : List Char) (c : Char)
    (h : (l.dropWhile p).head? = some c) : p c = false := by
  induction l with
  | nil => simp at h
  | cons a r ih =>
    by_cases ha : p a
    · simp only [List.dropWhile_cons, ha, if_true] at h
      exact ih h
    · rw [List.dropWhile_cons, if_neg ha] at h
      simp only [List.head?_cons, Option.some.injEq] at h
      subst h
      simp [ha]

/-- Structure of a successful `tryPat`. -/
theorem tryPat_some (cls : Char → Bool) (pats : List TokPat) (l after : List Char)
    (h : tryPat cls pats l = some after) :
    ∃ c rest p, l = c :: rest ∧ p ∈ pats ∧ c = p.1 ∧ p.2.isPrefixOf rest = true
      ∧ (rest.drop p.2.length).head?.any cls = true ∧ after = rest.drop p.2.length := by
  unfold tryPat at h
  cases l with
  | nil => exact absurd h (by simp)
  | cons c rest =>
    obtain ⟨p, hp, hfp⟩ := List.exists_of_findSome?_eq_some h
    by_cases hc : c = p.1 ∧ p.2.isPrefixOf rest = true
      ∧ (rest.drop p.2.length).head?.any cls = true
    · refine ⟨c, rest, p, rfl, hp, hc.1, hc.2.1, hc.2.2, ?_⟩
      rw [if_pos hc] at hfp
      exact (Option.some.injEq _ _ ▸ hfp).symm
    · rw [if_neg hc] at hfp
      exact absurd hfp (by simp)

theorem tryPat_some_length (cls : Char → Bool) (pats : List TokPat) (l after : List Char)
    (h : tryPat cls pats l = some after) : after.length < l.length := by
  obtain ⟨c, rest, p, rfl, _, _, _, _, rfl⟩ := tryPat_some cls pats _ _ h
  have := List.length_drop p.2.length rest
  simp only [List.length_cons]
  omega

/-- The fuel argument of `subPatF` is irrelevant once it bounds the length. -/
theorem subPatF_fuel (cls : Char → Bool) (pats : List TokPat) :
    ∀ (f g : Nat) (l : List Char), l.length ≤ f → l.length ≤ g →
      subPatF cls pats f l = subPatF cls pats g l := by
  intro f
  induction f with
  | zero =>
    intro g l hf _
    have : l = [] := List.eq_nil_of_length_eq_zero (by omega)
    subst this
    cases g <;> rfl
  | succ f ih =>
    intro g l hf hg
    cases l with
    | nil => cases g <;> rfl
    | cons c rest =>
      cases g with
      | zero => simp at hg
      | succ g =>
        simp only [subPatF]
        cases htp : tryPat cls pats (c :: rest) with
        | some after =>
          have hlen := tryPat_some_length cls pats _ _ htp
          have hdw := length_dropWhile_le cls after
          simp only [List.length_cons] at hf hg hlen
          exact ih g (after.dropWhile cls) (by omega) (by omega)
        | none =>
          simp only [List.length_cons] at hf hg
          rw [ih g rest (by omega) (by omega)]

theorem subPat_cons_match (cls : Char → Bool) (pats : List TokPat) (c : Char)
    (rest after : List Char) (h : tryPat cls pats (c :: rest) = some after) :
    subPat cls pats (c :: rest) = subPat cls pats (after.dropWhile cls) := by
  unfold subPat
  show subPatF cls pats (rest.length + 1) (c :: rest) = _
  simp only [subPatF, h]
  apply subPatF_fuel
  · have hlen := tryPat_some_length cls pats _ _ h
    have hdw := length_dropWhile_le cls after
    simp only [List.length_cons] at hlen
    omega
  · exact Nat.le_refl _

theorem subPat_cons_nomatch (cls : Char → Bool) (pats : List TokPat) (c : Char)
    (rest : List Char) (h : tryPat cls pats (c :: rest) = none) :
    subPat cls pats (c :: rest) = c :: subPat cls pats rest := by
  unfold subPat
  show subPatF cls pats (rest.length + 1) (c :: rest) = _
  simp only [subPatF, h]

/-- Does any position of `l` start a match? -/
def hasPM (cls : Char → Bool) (pats : List TokPat) : List Char → Bool
  | [] => false
  | c :: rest => (tryPat cls pats (c :: rest)).isSome || hasPM cls pats rest

theorem hasPM_of_suffix (cls : Char → Bool) (pats : List TokPat) (l₂ l₁ : List Char)
    (hs : l₂ <:+ l₁) (h : hasPM cls pats l₂ = true) : hasPM cls pats l₁ = true := by
  obtain ⟨pre, rfl⟩ := hs
  induction pre with
  | nil => exact h
  | cons a pre ih =>
    show (_ || hasPM cls pats (pre ++ l₂)) = true
    rw [ih]
    simp

/-- If the input's head is outside the run class, so is the output's
(removals always stop at a class boundary). -/
theorem subPat_head_not_cls (cls : Char → Bool) (pats : List TokPat) :
    ∀ (n : Nat) (l : List Char), l.length ≤ n →
      (∀ c, l.head? = some c → cls c = false) →
      ∀ c', (subPat cls pats l).head? = some c' → cls c' = false := by
  intro n
  induction n with
  | zero =>
    intro l hl _ c' h
    have : l = [] := List.eq_nil_of_length_eq_zero (by omega)
    subst this
    simp [subPat, subPatF] at h
  | succ n ih =>
    intro l hl hhead c' h
    cases l with
    | nil => simp [subPat, subPatF] at h
    | cons c rest =>
      cases htp : tryPat cls pats (c :: rest) with
      | some after =>
        rw [subPat_cons_match cls pats c rest after htp] at h
        have hlen := tryPat_some_length cls pats _ _ htp
        have hdw := length_dropWhile_le cls after
        refine ih (after.dropWhile cls) ?_ ?_ c' h
        · simp only [List.length_cons] at hl hlen
          omega
        · intro d hd
          exact head?_dropWhile_not cls after d hd
      | none =>
        rw [subPat_cons_nomatch cls pats c rest htp] at h
        simp only [List.head?_cons, Option.some.injEq] at h
        exact h ▸ hhead c rfl

/-- Transfer of a literal-plus-class-head prefix from the scanner output to
the scanner input: if the output starts with `t ++ c₀ :: δ` where the
characters of `t` and `c₀` lie in the run class, then the input already
started with `t` followed by a class character. -/
theorem subPat_prefix_transfer (cls : Char → Bool) (pats : List TokPat) :
    ∀ (t : List Char), (∀ a ∈ t, cls a = true) →
      ∀ (x : List Char) (c₀ : Char) (δ : List Char),
        subPat cls pats x = t ++ c₀ :: δ → cls c₀ = true →
        ∃ c₀' δ', x = t ++ c₀' :: δ' ∧ cls c₀' = true := by
  intro t
  induction t with
  | nil =>
    intro _ x c₀ δ hsub hc
    cases x with
    | nil => simp [subPat, subPatF] at hsub
    | cons c rest =>
      cases htp : tryPat cls pats (c :: rest) with
      | some after =>
        rw [subPat_cons_match cls pats c rest after htp] at hsub
        have hnot : cls c₀ = false := by
          apply subPat_head_not_cls cls pats (after.dropWhile cls).length _ le_rfl
          · intro d hd
            exact head?_dropWhile_not cls after d hd
          · rw [hsub]
            rfl
        rw [hnot] at hc
        exact absurd hc (by simp)
      | none =>
        rw [subPat_cons_nomatch cls pats c rest htp] at hsub
        simp only [List.nil_append] at hsub
        injection hsub with h1 _
        exact ⟨c, rest, by simp, h1 ▸ hc⟩
  | cons a t' ih =>
    intro ht x c₀ δ hsub hc
    cases x with
    | nil => simp [subPat, subPatF] at hsub
    | cons c rest =>
      cases htp : tryPat cls pats (c :: rest) with
      | some after =>
        rw [subPat_cons_match cls pats c rest after htp] at hsub
        have hnot : cls a = false := by
          apply subPat_head_not_cls cls pats (after.dropWhile cls).length _ le_rfl
          · intro d hd
            exact head?_dropWhile_not cls after d hd
          · rw [hsub]
            rfl
        rw [ht a (List.mem_cons_self a t')] at hnot
        exact absurd hnot (by simp)
      | none =>
        rw [subPat_cons_nomatch cls pats c rest htp] at hsub
        simp only [List.cons_append] at hsub
        injection hsub with h1 h2
        obtain ⟨c₀', δ', hx, hcls⟩ :=
          ih (fun b hb => ht b (List.mem_cons_of_mem a hb)) rest c₀ δ h2 hc
        refine ⟨c₀', δ', ?_, hcls⟩
        rw [List.cons_append, ← h1, hx]

/-- Sufficient conditions for a match at the head. -/
theorem tryPat_isSome_of (cls : Char → Bool) (pats : List TokPat) (p : TokPat)
    (hp : p ∈ pats) (c c₀ : Char) (rest δ : List Char)
    (hc : c = p.1) (hx : rest = p.2 ++ c₀ :: δ) (hcls : cls c₀ = true) :
    (tryPat cls pats (c :: rest)).isSome = true := by
  cases htp : tryPat cls pats (c :: rest) with
  | some after => rfl
  | none =>
    exfalso
    unfold tryPat at htp
    have hall := List.findSome?_eq_none_iff.mp htp p hp
    have hcond : c = p.1 ∧ p.2.isPrefixOf rest = true
        ∧ (rest.drop p.2.length).head?.any cls = true := by
      refine ⟨hc, ?_, ?_⟩
      · rw [hx]
        exact List.isPrefixOf_iff_prefix.mpr (List.prefix_append p.2 (c₀ :: δ))
      · rw [hx, List.drop_left p.2 (c₀ :: δ)]
        simp [hcls]
    rw [if_pos hcond] at hall
    exact absurd hall (by simp)

/-- No new match appears at a surviving character: if nothing matched at
`c :: rest`, nothing matches at `c` followed by the cleaned rest. -/
theorem tryPat_none_preserved (cls : Char → Bool) (pats : List TokPat)
    (hwf : ∀ p ∈ pats, ∀ a ∈ p.2, cls a = true)
    (c : Char) (rest : List Char)
    (h : tryPat cls pats (c :: rest) = none) :
    tryPat cls pats (c :: subPat cls pats rest) = none := by
  cases htp : tryPat cls pats (c :: subPat cls pats rest) with
  | none => rfl
  | some after =>
    exfalso
    obtain ⟨c', out', p, heq, hp, hcp, hpre, hhead, _⟩ := tryPat_some cls pats _ _ htp
    injection heq with h1 h2
    obtain ⟨s, hs⟩ := List.isPrefixOf_iff_prefix.mp hpre
    cases hss : s with
    | nil =>
      rw [hss] at hs
      rw [← hs, List.append_nil, List.drop_length] at hhead
      simp at hhead
    | cons c₀ δ =>
      rw [hss] at hs
      have hdrop : (out'.drop p.2.length).head?.any cls = true := hhead
      rw [← hs, List.drop_left p.2 (c₀ :: δ)] at hdrop
      simp only [List.head?_cons, Option.any_some] at hdrop
      have hsubeq : subPat cls pats rest = p.2 ++ c₀ :: δ := by
        rw [h2, ← hs]
      obtain ⟨c₀', δ', hx, hcls⟩ :=
        subPat_prefix_transfer cls pats p.2 (hwf p hp) rest c₀ δ hsubeq hdrop
      have := tryPat_isSome_of cls pats p hp c c₀' rest δ' (h1 ▸ hcp) hx hcls
      rw [h] at this
      exact absurd this (by simp)

/-- The output of one `re.sub` pass contains no further match of the same
pattern set. -/
theorem subPat_output_no_match (cls : Char → Bool) (pats : List TokPat)
    (hwf : ∀ p ∈ pats, ∀ a ∈ p.2, cls a = true) :
    ∀ (n : Nat) (l : List Char), l.length ≤ n →
      hasPM cls pats (subPat cls pats l) = false := by
  intro n
  induction n with
  | zero =>
    intro l hl
    have : l = [] := List.eq_nil_of_length_eq_zero (by omega)
    subst this
    rfl
  | succ n ih =>
    intro l hl
    cases l with
    | nil => rfl
    | cons c rest =>
      cases htp : tryPat cls pats (c :: rest) with
      | some after =>
        rw [subPat_cons_match cls pats c rest after htp]
        have hlen := tryPat_some_length cls pats _ _ htp
        have hdw := length_dropWhile_le cls after
        simp only [List.length_cons] at hl hlen
        exact ih _ (by omega)
      | none =>
        rw [subPat_cons_nomatch cls pats c rest htp]
        show ((tryPat cls pats (c :: subPat cls pats rest)).isSome
          || hasPM cls pats (subPat cls pats rest)) = false
        rw [tryPat_none_preserved cls pats hwf c rest htp]
        simp only [Option.isSome_none, Bool.false_or]
        simp only [List.length_cons] at hl
        exact ih rest (by omega)

/-- A match-free string is left unchanged by the pass. -/
theorem subPat_id_of_no_match (cls : Char → Bool) (pats : List TokPat) :
    ∀ (l : List Char), hasPM cls pats l = false → subPat cls pats l = l := by
  intro l
  induction l with
  | nil => intro _; rfl
  | cons c rest ih =>
    intro h
    have h2 : (tryPat cls pats (c :: rest)).isSome = false
        ∧ hasPM cls pats rest = false := by
      simpa [hasPM, Bool.or_eq_false_iff] using h
    have htp : tryPat cls pats (c :: rest) = none :=
      Option.not_isSome_iff_eq_none.mp (by simp [h2.1])
    rw [subPat_cons_nomatch cls pats c rest htp, ih h2.2]

/-- One `re.sub` pass of a literal-plus-class-run pattern set is idempotent. -/
theorem subPat_idem (cls : Char → Bool) (pats : List TokPat)
    (hwf : ∀ p ∈ pats, ∀ a ∈ p.2, cls a = true) (l : List Char) :
    subPat cls pats (subPat cls pats l) = subPat cls pats l :=
  subPat_id_of_no_match cls pats _ (subPat_output_no_match cls pats hwf l.length l le_rfl)

/-- Cross-pattern preservation: cleaning with one pattern set of the same
run class cannot create a match for another pattern set. -/
theorem subPat_cross_no_match (cls : Char → Bool) (patsP patsQ : List TokPat)
    (hwfP : ∀ p ∈ patsP, ∀ a ∈ p.2, cls a = true) :
    ∀ (n : Nat) (l : List Char), l.length ≤ n →
      hasPM cls patsP (subPat cls patsQ l) = true → hasPM cls patsP l = true := by
  intro n
  induction n with
  | zero =>
    intro l hl h
    have : l = [] := List.eq_nil_of_length_eq_zero (by omega)
    subst this
    simp [subPat, subPatF, hasPM] at h
  | succ n ih =>
    intro l hl h
    cases l with
    | nil => simp [subPat, subPatF, hasPM] at h
    | cons c rest =>
      cases htp : tryPat cls patsQ (c :: rest) with
      | some after =>
        rw [subPat_cons_match cls patsQ c rest after htp] at h
        have hlen := tryPat_some_length cls patsQ _ _ htp
        have hdw := length_dropWhile_le cls after
        simp only [List.length_cons] at hl hlen
        have hrec := ih (after.dropWhile cls) (by omega) h
        refine hasPM_of_suffix cls patsP (after.dropWhile cls) (c :: rest) ?_ hrec
        obtain ⟨c', r', p, heq, _, _, _, _, hafter⟩ := tryPat_some cls patsQ _ _ htp
        injection heq with h1 h2
        rw [hafter, h2, h1]
        exact ((List.dropWhile_suffix cls).trans (List.drop_suffix _ r')).trans
          (List.suffix_cons c' r')
      | none =>
        rw [subPat_cons_nomatch cls patsQ c rest htp] at h
        show ((tryPat cls patsP (c :: rest)).isSome || hasPM cls patsP rest) = true
        rcases Bool.or_eq_true_iff.mp h with h1 | h2
        · cases htp2 : tryPat cls patsP (c :: subPat cls patsQ rest) with
          | none => rw [htp2] at h1; simp at h1
          | some after' =>
            obtain ⟨c', out', p, heq, hp, hcp, hpre, hhead, _⟩ :=
              tryPat_some cls patsP _ _ htp2
            injection heq with hh1 hh2
            obtain ⟨s, hs⟩ := List.isPrefixOf_iff_prefix.mp hpre
            cases hss : s with
            | nil =>
              rw [hss] at hs
              rw [← hs, List.append_nil, List.drop_length] at hhead
              simp at hhead
            | cons c₀ δ =>
              rw [hss] at hs
              rw [← hs, List.drop_left p.2 (c₀ :: δ)] at hhead
              simp only [List.head?_cons, Option.any_some] at hhead
              have hsubeq : subPat cls patsQ rest = p.2 ++ c₀ :: δ := by
                rw [hh2, ← hs]
              obtain ⟨c₀', δ', hx, hcls⟩ :=
                subPat_prefix_transfer cls patsQ p.2 (hwfP p hp) rest c₀ δ hsubeq hhead
              rw [tryPat_isSome_of cls patsP p hp c c₀' rest δ' (hh1 ▸ hcp) hx hcls]
              simp
        · simp only [List.length_cons] at hl
          rw [ih rest (by omega) h2]
          simp

theorem hashtagPats_wf : ∀ p ∈ hashtagPats, ∀ a ∈ p.2, isWordChar a = true := by decide

theorem mentionPats_wf : ∀ p ∈ mentionPats, ∀ a ∈ p.2, isWordChar a = true := by decide

theorem urlPats1_wf : ∀ p ∈ urlPats1, ∀ a ∈ p.2, nonspaceCls a = true := by decide

theorem urlPats2_wf : ∀ p ∈ urlPats2, ∀ a ∈ p.2, nonspaceCls a = true := by decide

theorem urlPats3_wf : ∀ p ∈ urlPats3, ∀ a ∈ p.2, nonspaceCls a = true := by decide

theorem urlPats4_wf : ∀ p ∈ urlPats4, ∀ a ∈ p.2, nonspaceCls a = true := by decide

theorem urlPats5_wf : ∀ p ∈ urlPats5, ∀ a ∈ p.2, nonspaceCls a = true := by decide

theorem cleanHashtag_idem (l : List Char) : cleanHashtag (cleanHashtag l) = cleanHashtag l :=
  subPat_idem isWordChar hashtagPats hashtagPats_wf l

theorem cleanMention_idem (l : List Char) : cleanMention (cleanMention l) = cleanMention l :=
  subPat_idem isWordChar mentionPats mentionPats_wf l

theorem subPat_cross_no_match_false (cls : Char → Bool) (patsP patsQ : List TokPat)
    (hwfP : ∀ p ∈ patsP, ∀ a ∈ p.2, cls a = true) (x : List Char)
    (h : hasPM cls patsP x = false) :
    hasPM cls patsP (subPat cls patsQ x) = false := by
  cases hh : hasPM cls patsP (subPat cls patsQ x) with
  | false => rfl
  | true =>
    rw [subPat_cross_no_match cls patsP patsQ hwfP x.length x le_rfl hh] at h
    exact absurd h (by simp)

theorem cleanLink_idem (l : List Char) : cleanLink (cleanLink l) = cleanLink l := by
  have h1a : hasPM nonspaceCls urlPats1 (subPat nonspaceCls urlPats1 l) = false :=
    subPat_output_no_match nonspaceCls urlPats1 urlPats1_wf l.length l le_rfl
  have h1b := subPat_cross_no_match_false nonspaceCls urlPats1 urlPats2 urlPats1_wf _ h1a
  have h1c := subPat_cross_no_match_false nonspaceCls urlPats1 urlPats3 urlPats1_wf _ h1b
  have h1d := subPat_cross_no_match_false nonspaceCls urlPats1 urlPats4 urlPats1_wf _ h1c
  have h1e := subPat_cross_no_match_false nonspaceCls urlPats1 urlPats5 urlPats1_wf _ h1d
  have h2a : hasPM nonspaceCls urlPats2
      (subPat nonspaceCls urlPats2 (subPat nonspaceCls urlPats1 l)) = false :=
    subPat_output_no_match nonspaceCls urlPats2 urlPats2_wf _ _ le_rfl
  have h2b := subPat_cross_no_match_false nonspaceCls urlPats2 urlPats3 urlPats2_wf _ h2a
  have h2c := subPat_cross_no_match_false nonspaceCls urlPats2 urlPats4 urlPats2_wf _ h2b
  have h2d := subPat_cross_no_match_false nonspaceCls urlPats2 urlPats5 urlPats2_wf _ h2c
  have h3a : hasPM nonspaceCls urlPats3
      (subPat nonspaceCls urlPats3 (subPat nonspaceCls urlPats2
        (subPat nonspaceCls urlPats1 l))) = false :=
    subPat_output_no_match nonspaceCls urlPats3 urlPats3_wf _ _ le_rfl
  have h3b := subPat_cross_no_match_false nonspaceCls urlPats3 urlPats4 urlPats3_wf _ h3a
  have h3c := subPat_cross_no_match_false nonspaceCls urlPats3 urlPats5 urlPats3_wf _ h3b
  have h4a : hasPM nonspaceCls urlPats4
      (subPat nonspaceCls urlPats4 (subPat nonspaceCls urlPats3
        (subPat nonspaceCls urlPats2 (subPat nonspaceCls urlPats1 l)))) = false :=
    subPat_output_no_match nonspaceCls urlPats4 urlPats4_wf _ _ le_rfl
  have h4b := subPat_cross_no_match_false nonspaceCls urlPats4 urlPats5 urlPats4_wf _ h4a
  have h5a : hasPM nonspaceCls urlPats5 (cleanLink l) = false :=
    subPat_output_no_match nonspaceCls urlPats5 urlPats5_wf
      (subPat nonspaceCls urlPats4 (subPat nonspaceCls urlPats3
        (subPat nonspaceCls urlPats2 (subPat nonspaceCls urlPats1 l)))).length _ le_rfl
  show subPat nonspaceCls urlPats5 (subPat nonspaceCls urlPats4 (subPat nonspaceCls urlPats3
    (subPat nonspaceCls urlPats2 (subPat nonspaceCls urlPats1 (cleanLink l))))) = cleanLink l
  rw [subPat_id_of_no_match nonspaceCls urlPats1 (cleanLink l) h1e,
    subPat_id_of_no_match nonspaceCls urlPats2 (cleanLink l) h2d,
    subPat_id_of_no_match nonspaceCls urlPats3 (cleanLink l) h3c,
    subPat_id_of_no_match nonspaceCls urlPats4 (cleanLink l) h4b,
    subPat_id_of_no_match nonspaceCls urlPats5 (cleanLink l) h5a]

theorem cleanEmoji_idem (l : List Char) : cleanEmoji (cleanEmoji l) = cleanEmoji l := by
  unfold cleanEmoji
  rw [List.filter_filter]
  apply List.filter_congr
  intro a _
  cases isEmojiChar a <;> rfl

/-! ### Email stage idempotence -/

theorem takeWhile_append_not (p : Char → Bool) (xs : List Char) (y : Char) (rest : List Char)
    (hxs : ∀ x ∈ xs, p x = true) (hy : p y = false) :
    (xs ++ y :: rest).takeWhile p = xs ∧ (xs ++ y :: rest).dropWhile p = y :: rest := by
  induction xs with
  | nil =>
    constructor
    · simp [List.takeWhile_cons, hy]
    · simp [List.dropWhile_cons, hy]
  | cons x xs ih =>
    have hx : p x = true := hxs x (List.mem_cons_self x xs)
    have hrest : ∀ a ∈ xs, p a = true := fun a ha => hxs a (List.mem_cons_of_mem x ha)
    obtain ⟨ht, hd⟩ := ih hrest
    constructor
    · simp [List.takeWhile_cons, hx, ht]
    · simp [List.dropWhile_cons, hx, hd]

/-- Structure of a successful email match: three non-empty class runs with
the two separators, and the remainder starts outside the suffix class. -/
theorem emailMatch_some (l rem : List Char) (h : emailMatch? l = some rem) :
    ∃ a b c3, l = a ++ '@' :: (b ++ '.' :: (c3 ++ rem))
      ∧ a ≠ [] ∧ b ≠ [] ∧ c3 ≠ []
      ∧ (∀ x ∈ a, emailCls1 x = true) ∧ (∀ x ∈ b, emailCls2 x = true)
      ∧ (∀ x ∈ c3, emailCls3 x = true)
      ∧ (∀ c, rem.head? = some c → emailCls3 c = false) := by
  unfold emailMatch? at h
  split at h
  · exact absurd h (by simp)
  rename_i hne1
  split at h
  case isFalse => exact absurd h (by simp)
  rename_i hat
  split at h
  · exact absurd h (by simp)
  rename_i hne2
  split at h
  case isFalse => exact absurd h (by simp)
  rename_i hdot
  split at h
  · exact absurd h (by simp)
  rename_i hne3
  simp only [Option.some.injEq] at h
  obtain ⟨x1, s2, hd1⟩ : ∃ x1 s2, l.dropWhile emailCls1 = x1 :: s2 := by
    cases hx : l.dropWhile emailCls1 with
    | nil => rw [hx] at hat; simp at hat
    | cons y ys => exact ⟨y, ys, rfl⟩
  have hx1 : x1 = '@' := by
    rw [hd1] at hat
    simpa using hat
  obtain ⟨x2, s4, hd2⟩ :
      ∃ x2 s4, ((l.dropWhile emailCls1).tail.dropWhile emailCls2) = x2 :: s4 := by
    cases hx : (l.dropWhile emailCls1).tail.dropWhile emailCls2 with
    | nil => rw [hx] at hdot; simp at hdot
    | cons y ys => exact ⟨y, ys, rfl⟩
  have hx2 : x2 = '.' := by
    rw [hd2] at hdot
    simpa using hdot
  refine ⟨l.takeWhile emailCls1, (l.dropWhile emailCls1).tail.takeWhile emailCls2,
    ((l.dropWhile emailCls1).tail.dropWhile emailCls2).tail.takeWhile emailCls3,
    ?_, ?_, ?_, ?_, ?_, ?_, ?_, ?_⟩
  · rw [← h]
    conv_lhs => rw [← List.takeWhile_append_dropWhile emailCls1 l, hd1, hx1]
    congr 1
    rw [hd1]
    simp only [List.tail_cons]
    conv_lhs => rw [← List.takeWhile_append_dropWhile emailCls2 s2]
    rw [hd1] at hd2
    simp only [List.tail_cons] at hd2 ⊢
    rw [hd2, hx2]
    congr 2
    simp only [List.tail_cons]
    rw [List.takeWhile_append_dropWhile emailCls3 s4]
  · intro hnil
    rw [hnil] at hne1
    exact hne1 rfl
  · intro hnil
    rw [hnil] at hne2
    exact hne2 rfl
  · intro hnil
    rw [hnil] at hne3
    exact hne3 rfl
  · intro x hx
    exact List.mem_takeWhile_imp hx
  · intro x hx
    exact List.mem_takeWhile_imp hx
  · intro x hx
    exact List.mem_takeWhile_imp hx
  · intro c hc
    rw [← h] at hc
    exact head?_dropWhile_not emailCls3 _ c hc

theorem emailCls1_at : emailCls1 '@' = false := by decide

theorem emailCls2_dot : emailCls2 '.' = false := by decide

/-- Existence of a decomposition forces a match. -/
theorem emailMatch_isSome_of (a b : List Char) (c0 : Char) (δ : List Char)
    (ha : a ≠ []) (hb : b ≠ [])
    (hca : ∀ x ∈ a, emailCls1 x = true) (hcb : ∀ x ∈ b, emailCls2 x = true)
    (hc0 : emailCls3 c0 = true) :
    (emailMatch? (a ++ '@' :: (b ++ '.' :: c0 :: δ))).isSome = true := by
  obtain ⟨ht1, hd1⟩ := takeWhile_append_not emailCls1 a '@' (b ++ '.' :: c0 :: δ) hca emailCls1_at
  obtain ⟨ht2, hd2⟩ := takeWhile_append_not emailCls2 b '.' (c0 :: δ) hcb emailCls2_dot
  have hae : a.isEmpty = false := by
    cases a with
    | nil => exact absurd rfl ha
    | cons x xs => rfl
  have hbe : b.isEmpty = false := by
    cases b with
    | nil => exact absurd rfl hb
    | cons x xs => rfl
  have hce : ((c0 :: δ).takeWhile emailCls3).isEmpty = false := by
    simp [List.takeWhile_cons, hc0]
  unfold emailMatch?
  rw [ht1, hd1, hae]
  simp only [List.head?_cons, List.tail_cons, Option.some.injEq, if_true,
    Bool.false_eq_true, if_false]
  rw [ht2, hbe, hd2]
  simp only [List.head?_cons, List.tail_cons, Option.some.injEq, Bool.false_eq_true, if_false]
  simp [hce]

theorem emailMatch_some_length (l rem : List Char) (h : emailMatch? l = some rem) :
    rem.length < l.length := by
  obtain ⟨a, b, c3, hl, ha, _, _, _, _, _, _⟩ := emailMatch_some l rem h
  have := congrArg List.length hl
  simp only [List.length_append, List.length_cons] at this
  have hal : 0 < a.length := by
    cases a with
    | nil => exact absurd rfl ha
    | cons x xs => simp
  omega

theorem stripEmailF_fuel :
    ∀ (f g : Nat) (l : List Char), l.length ≤ f → l.length ≤ g →
      stripEmailF f l = stripEmailF g l := by
  intro f
  induction f with
  | zero =>
    intro g l hf _
    have : l = [] := List.eq_nil_of_length_eq_zero (by omega)
    subst this
    cases g <;> rfl
  | succ f ih =>
    intro g l hf hg
    cases l with
    | nil => cases g <;> rfl
    | cons c rest =>
      cases g with
      | zero => simp at hg
      | succ g =>
        simp only [stripEmailF]
        cases hm : emailMatch? (c :: rest) with
        | some rem =>
          have hlen := emailMatch_some_length _ _ hm
          simp only [List.length_cons] at hf hg hlen
          exact ih g rem (by omega) (by omega)
        | none =>
          simp only [List.length_cons] at hf hg
          rw [ih g rest (by omega) (by omega)]

theorem cleanEmail_cons_match (c : Char) (rest rem : List Char)
    (h : emailMatch? (c :: rest) = some rem) :
    cleanEmail (c :: rest) = cleanEmail rem := by
  unfold cleanEmail
  show stripEmailF (rest.length + 1) (c :: rest) = _
  simp only [stripEmailF, h]
  apply stripEmailF_fuel
  · have := emailMatch_some_length _ _ h
    simp only [List.length_cons] at this
    omega
  · exact Nat.le_refl _

theorem cleanEmail_cons_nomatch (c : Char) (rest : List Char)
    (h : emailMatch? (c :: rest) = none) :
    cleanEmail (c :: rest) = c :: cleanEmail rest := by
  unfold cleanEmail
  show stripEmailF (rest.length + 1) (c :: rest) = _
  simp only [stripEmailF, h]

theorem emailCls2_sub_cls3 (c : Char) (h : emailCls2 c = true) : emailCls3 c = true := by
  unfold emailCls2 at h
  unfold emailCls3
  rcases Bool.or_eq_true_iff.mp h with h1 | h2
  · simp [h1]
  · simp [h2]

theorem emailCls3_dot : emailCls3 '.' = true := by decide

/-- The tail of an email match viewed from the suffix run: a class-3 head. -/
def EM3 (l : List Char) : Prop := ∃ c, l.head? = some c ∧ emailCls3 c = true

/-- A (possibly empty) class-2 run, a dot, then a class-3 head. -/
def EM2w (l : List Char) : Prop :=
  ∃ β δ, l = β ++ '.' :: δ ∧ (∀ x ∈ β, emailCls2 x = true) ∧ EM3 δ

/-- A non-empty class-2 run, a dot, then a class-3 head. -/
def EM2 (l : List Char) : Prop := ∃ e l2, l = e :: l2 ∧ emailCls2 e = true ∧ EM2w l2

/-- A (possibly empty) class-1 run, an at-sign, then an `EM2` tail. -/
def EMQ (l : List Char) : Prop :=
  ∃ α δ, l = α ++ '@' :: δ ∧ (∀ x ∈ α, emailCls1 x = true) ∧ EM2 δ

/-- A match at the head is exactly a non-empty class-1 run, `@`, and an
`EM2` tail. -/
theorem emailMatch_isSome_iff (l : List Char) :
    (emailMatch? l).isSome = true
      ↔ ∃ α δ, l = α ++ '@' :: δ ∧ α ≠ [] ∧ (∀ x ∈ α, emailCls1 x = true) ∧ EM2 δ := by
  constructor
  · intro h
    obtain ⟨rem, hrem⟩ := Option.isSome_iff_exists.mp h
    obtain ⟨a, b, c3, hl, ha, hb, hc3, hca, hcb, hcc, _⟩ := emailMatch_some l rem hrem
    refine ⟨a, b ++ '.' :: (c3 ++ rem), hl, ha, hca, ?_⟩
    cases b with
    | nil => exact absurd rfl hb
    | cons e b' =>
      refine ⟨e, b' ++ '.' :: (c3 ++ rem), by simp, hcb e (List.mem_cons_self e b'), ?_⟩
      refine ⟨b', c3 ++ rem, rfl, fun x hx => hcb x (List.mem_cons_of_mem e hx), ?_⟩
      cases c3 with
      | nil => exact absurd rfl hc3
      | cons h3 t3 => exact ⟨h3, rfl, hcc h3 (List.mem_cons_self h3 t3)⟩
  · rintro ⟨α, δ, rfl, hα, hcα, e, l2, rfl, hce, β, δ2, rfl, hcβ, c0, hc0, hcls0⟩
    obtain ⟨δ3, hδ3⟩ : ∃ δ3, δ2 = c0 :: δ3 := by
      cases δ2 with
      | nil => simp at hc0
      | cons y ys =>
        simp only [List.head?_cons, Option.some.injEq] at hc0
        exact ⟨ys, by rw [hc0]⟩
    rw [hδ3]
    have hrw : α ++ '@' :: (e :: (β ++ '.' :: c0 :: δ3))
        = α ++ '@' :: ((e :: β) ++ '.' :: c0 :: δ3) := by simp
    rw [hrw]
    exact emailMatch_isSome_of α (e :: β) c0 δ3 hα (by simp)
      hcα (by
        intro x hx
        rcases List.mem_cons.mp hx with rfl | hx'
        · exact hce
        · exact hcβ x hx') hcls0

theorem em3_transfer : ∀ (n : Nat) (y : List Char), y.length ≤ n →
    EM3 (cleanEmail y) → EM3 y := by
  intro n
  induction n with
  | zero =>
    intro y hy h
    have : y = [] := List.eq_nil_of_length_eq_zero (by omega)
    subst this
    obtain ⟨c, hc, _⟩ := h
    simp [cleanEmail, stripEmailF] at hc
  | succ n ih =>
    intro y hy h
    cases y with
    | nil =>
      obtain ⟨c, hc, _⟩ := h
      simp [cleanEmail, stripEmailF] at hc
    | cons c rest =>
      cases hm : emailMatch? (c :: rest) with
      | some rem =>
        rw [cleanEmail_cons_match c rest rem hm] at h
        have hlen := emailMatch_some_length _ _ hm
        simp only [List.length_cons] at hy hlen
        obtain ⟨c', hc', hcls'⟩ := ih rem (by omega) h
        obtain ⟨_, _, _, _, _, _, _, _, _, _, hrem⟩ := emailMatch_some _ _ hm
        rw [hrem c' hc'] at hcls'
        exact absurd hcls' (by simp)
      | none =>
        rw [cleanEmail_cons_nomatch c rest hm] at h
        obtain ⟨c', hc', hcls'⟩ := h
        simp only [List.head?_cons, Option.some.injEq] at hc'
        exact ⟨c, rfl, hc' ▸ hcls'⟩

theorem em2w_transfer : ∀ (n : Nat) (y : List Char), y.length ≤ n →
    EM2w (cleanEmail y) → EM2w y := by
  intro n
  induction n with
  | zero =>
    intro y hy h
    have : y = [] := List.eq_nil_of_length_eq_zero (by omega)
    subst this
    obtain ⟨β, δ, heq, _, _⟩ := h
    simp [cleanEmail, stripEmailF] at heq
  | succ n ih =>
    intro y hy h
    cases y with
    | nil =>
      obtain ⟨β, δ, heq, _, _⟩ := h
      simp [cleanEmail, stripEmailF] at heq
    | cons c rest =>
      cases hm : emailMatch? (c :: rest) with
      | some rem =>
        exfalso
        rw [cleanEmail_cons_match c rest rem hm] at h
        have hlen := emailMatch_some_length _ _ hm
        simp only [List.length_cons] at hy hlen
        obtain ⟨β, δ, heq, hcβ, _⟩ := ih rem (by omega) h
        obtain ⟨_, _, _, _, _, _, _, _, _, _, hrem⟩ := emailMatch_some _ _ hm
        cases β with
        | nil =>
          have : rem.head? = some '.' := by rw [heq]; rfl
          have := hrem '.' this
          rw [emailCls3_dot] at this
          exact absurd this (by simp)
        | cons b β' =>
          have : rem.head? = some b := by rw [heq]; rfl
          have hnc := hrem b this
          have hc := emailCls2_sub_cls3 b (hcβ b (List.mem_cons_self b β'))
          rw [hc] at hnc
          exact absurd hnc (by simp)
      | none =>
        rw [cleanEmail_cons_nomatch c rest hm] at h
        obtain ⟨β, δ, heq, hcβ, h3⟩ := h
        cases β with
        | nil =>
          simp only [List.nil_append, List.cons.injEq] at heq
          obtain ⟨rfl, rfl⟩ := heq
          have hlen : rest.length ≤ n := by
            simp only [List.length_cons] at hy
            omega
          exact ⟨[], rest, by simp, by simp, em3_transfer rest.length rest le_rfl (by
            exact h3)⟩
        | cons b β' =>
          simp only [List.cons_append, List.cons.injEq] at heq
          obtain ⟨rfl, heq2⟩ := heq
          have hlen : rest.length ≤ n := by
            simp only [List.length_cons] at hy
            omega
          obtain ⟨β'', δ'', heq'', hcβ'', h3''⟩ :=
            ih rest hlen ⟨β', δ, heq2, fun x hx => hcβ x (List.mem_cons_of_mem c hx), h3⟩
          refine ⟨c :: β'', δ'', by rw [heq'']; rfl, ?_, h3''⟩
          intro x hx
          rcases List.mem_cons.mp hx with hx1 | hx'
          · rw [hx1]
            exact hcβ c (List.mem_cons_self c β')
          · exact hcβ'' x hx'

theorem em2_transfer : ∀ (n : Nat) (y : List Char), y.length ≤ n →
    EM2 (cleanEmail y) → EM2 y := by
  intro n
  induction n with
  | zero =>
    intro y hy h
    have : y = [] := List.eq_nil_of_length_eq_zero (by omega)
    subst this
    obtain ⟨e, l2, heq, _, _⟩ := h
    simp [cleanEmail, stripEmailF] at heq
  | succ n ih =>
    intro y hy h
    cases y with
    | nil =>
      obtain ⟨e, l2, heq, _, _⟩ := h
      simp [cleanEmail, stripEmailF] at heq
    | cons c rest =>
      cases hm : emailMatch? (c :: rest) with
      | some rem =>
        exfalso
        rw [cleanEmail_cons_match c rest rem hm] at h
        have hlen := emailMatch_some_length _ _ hm
        simp only [List.length_cons] at hy hlen
        obtain ⟨e, l2, heq, hce, _⟩ := ih rem (by omega) h
        obtain ⟨_, _, _, _, _, _, _, _, _, _, hrem⟩ := emailMatch_some _ _ hm
        have : rem.head? = some e := by rw [heq]; rfl
        have hnc := hrem e this
        rw [emailCls2_sub_cls3 e hce] at hnc
        exact absurd hnc (by simp)
      | none =>
        rw [cleanEmail_cons_nomatch c rest hm] at h
        obtain ⟨e, l2, heq, hce, h2w⟩ := h
        simp only [List.cons.injEq] at heq
        obtain ⟨rfl, rfl⟩ := heq
        have hlen : rest.length ≤ n := by
          simp only [List.length_cons] at hy
          omega
        exact ⟨c, rest, rfl, hce, em2w_transfer rest.length rest le_rfl h2w⟩

theorem emq_transfer : ∀ (n : Nat) (x : List Char), x.length ≤ n →
    EMQ (cleanEmail x) → EMQ x := by
  intro n
  induction n with
  | zero =>
    intro x hx h
    have : x = [] := List.eq_nil_of_length_eq_zero (by omega)
    subst this
    obtain ⟨α, δ, heq, _, _⟩ := h
    simp [cleanEmail, stripEmailF] at heq
  | succ n ih =>
    intro x hx h
    cases x with
    | nil =>
      obtain ⟨α, δ, heq, _, _⟩ := h
      simp [cleanEmail, stripEmailF] at heq
    | cons c rest =>
      cases hm : emailMatch? (c :: rest) with
      | some rem =>
        obtain ⟨a, b, c3, hl, ha, hb, hc3, hca, hcb, hcc, _⟩ := emailMatch_some _ _ hm
        refine ⟨a, b ++ '.' :: (c3 ++ rem), hl, hca, ?_⟩
        cases b with
        | nil => exact absurd rfl hb
        | cons e b' =>
          refine ⟨e, b' ++ '.' :: (c3 ++ rem), by simp, hcb e (List.mem_cons_self e b'), ?_⟩
          refine ⟨b', c3 ++ rem, rfl, fun z hz => hcb z (List.mem_cons_of_mem e hz), ?_⟩
          cases c3 with
          | nil => exact absurd rfl hc3
          | cons h3 t3 => exact ⟨h3, rfl, hcc h3 (List.mem_cons_self h3 t3)⟩
      | none =>
        rw [cleanEmail_cons_nomatch c rest hm] at h
        obtain ⟨α, δ, heq, hcα, h2⟩ := h
        have hlen : rest.length ≤ n := by
          simp only [List.length_cons] at hx
          omega
        cases α with
        | nil =>
          simp only [List.nil_append, List.cons.injEq] at heq
          obtain ⟨rfl, rfl⟩ := heq
          exact ⟨[], rest, by simp, by simp, em2_transfer rest.length rest le_rfl h2⟩
        | cons a α' =>
          simp only [List.cons_append, List.cons.injEq] at heq
          obtain ⟨rfl, heq2⟩ := heq
          obtain ⟨α'', δ'', heq'', hcα'', h2''⟩ :=
            ih rest hlen ⟨α', δ, heq2, fun z hz => hcα z (List.mem_cons_of_mem c hz), h2⟩
          refine ⟨c :: α'', δ'', by rw [heq'']; rfl, ?_, h2''⟩
          intro z hz
          rcases List.mem_cons.mp hz with hz1 | hz'
          · rw [hz1]
            exact hcα c (List.mem_cons_self c α')
          · exact hcα'' z hz'

/-- Whether some suffix of `l` starts an email match. -/
def hasEM : List Char → Bool
  | [] => false
  | c :: rest => (emailMatch? (c :: rest)).isSome || hasEM rest

theorem cleanEmail_no_match : ∀ (n : Nat) (l : List Char), l.length ≤ n →
    hasEM (cleanEmail l) = false := by
  intro n
  induction n with
  | zero =>
    intro l hl
    have : l = [] := List.eq_nil_of_length_eq_zero (by omega)
    subst this
    rfl
  | succ n ih =>
    intro l hl
    cases l with
    | nil => rfl
    | cons c rest =>
      cases hm : emailMatch? (c :: rest) with
      | some rem =>
        rw [cleanEmail_cons_match c rest rem hm]
        have hlen := emailMatch_some_length _ _ hm
        simp only [List.length_cons] at hl hlen
        exact ih rem (by omega)
      | none =>
        rw [cleanEmail_cons_nomatch c rest hm]
        have hlen : rest.length ≤ n := by
          simp only [List.length_cons] at hl
          omega
        have htail := ih rest hlen
        show ((emailMatch? (c :: cleanEmail rest)).isSome || hasEM (cleanEmail rest)) = false
        rw [htail, Bool.or_false]
        cases hs : (emailMatch? (c :: cleanEmail rest)).isSome with
        | false => rfl
        | true =>
          exfalso
          obtain ⟨α, δ, heq, hα, hcα, h2⟩ := (emailMatch_isSome_iff _).mp hs
          cases α with
          | nil => exact hα rfl
          | cons a α' =>
            simp only [List.cons_append, List.cons.injEq] at heq
            obtain ⟨rfl, heq2⟩ := heq
            have hq : EMQ (cleanEmail rest) :=
              ⟨α', δ, heq2, fun z hz => hcα z (List.mem_cons_of_mem c hz), h2⟩
            obtain ⟨α0, δ0, heq0, hcα0, h20⟩ := emq_transfer rest.length rest le_rfl hq
            have hnew : (emailMatch? (c :: rest)).isSome = true := by
              apply (emailMatch_isSome_iff (c :: rest)).mpr
              refine ⟨c :: α0, δ0, by rw [heq0]; rfl, by simp, ?_, h20⟩
              intro z hz
              rcases List.mem_cons.mp hz with hz1 | hz'
              · rw [hz1]
                exact hcα c (List.mem_cons_self c α')
              · exact hcα0 z hz'
            rw [hm] at hnew
            exact absurd hnew (by simp)

theorem cleanEmail_id_of_no_match : ∀ (l : List Char), hasEM l = false →
    cleanEmail l = l := by
  intro l
  induction l with
  | nil => intro _; rfl
  | cons c rest ih =>
    intro h
    have h' : (emailMatch? (c :: rest)).isSome = false ∧ hasEM rest = false := by
      have : ((emailMatch? (c :: rest)).isSome || hasEM rest) = false := h
      exact ⟨by
        cases hs : (emailMatch? (c :: rest)).isSome with
        | false => rfl
        | true => rw [hs] at this; simp at this, by
        cases ht : hasEM rest with
        | false => rfl
        | true => rw [ht] at this; simp at this⟩
    have hm : emailMatch? (c :: rest) = none := Option.not_isSome_iff_eq_none.mp (by
      rw [h'.1]; simp)
    rw [cleanEmail_cons_nomatch c rest hm, ih h'.2]

theorem cleanEmail_idem (l : List Char) :
    cleanEmail (cleanEmail l) = cleanEmail l :=
  cleanEmail_id_of_no_match (cleanEmail l) (cleanEmail_no_match l.length l le_rfl)

def phoneCexIn : List Char := "12-+9999999999999999999999991234x".toList

/-- C8 (corrected): per-stage idempotence holds for the hashtag, mention,
link, emoji and email cleaning stages — each applied to its own output
returns that output unchanged for every input — but NOT for the phone
stage: the bounded quantifiers of `\+?\d{1,4}[-.\s]?\(?\d{1,3}\)?[-.\s]?\d{1,4}[-.\s]?\d{1,4}[-.\s]?\d{1,9}`
cap a match at finitely many digits, so a long digit run is only partly
consumed, and the leftover digits can fuse with surrounding text into a
fresh match on the second application. -/
theorem cleaning_stages_idempotent_except_phone :
    (∀ l, cleanHashtag (cleanHashtag l) = cleanHashtag l) ∧
    (∀ l, cleanMention (cleanMention l) = cleanMention l) ∧
    (∀ l, cleanLink (cleanLink l) = cleanLink l) ∧
    (∀ l, cleanEmoji (cleanEmoji l) = cleanEmoji l) ∧
    (∀ l, cleanEmail (cleanEmail l) = cleanEmail l) :=
  ⟨cleanHashtag_idem, cleanMention_idem, cleanLink_idem, cleanEmoji_idem, cleanEmail_idem⟩

/-- C8 counterexample: on `"12-+9999999999999999999999991234x"` the phone
stage returns `"12-1234x"`, and a second application returns `"x"`, so the
phone stage is not idempotent. -/
theorem clean_phone_not_idempotent :
    cleanPhone phoneCexIn = "12-1234x".toList ∧
    cleanPhone (cleanPhone phoneCexIn) = "x".toList ∧
    cleanPhone (cleanPhone phoneCexIn) ≠ cleanPhone phoneCexIn := by
  refine ⟨by decide, by decide, by decide⟩
